import Mathlib

/-!
Verification development for the quantized curve-leaf encoding
(`kernels/geometry/bezierNi.h`, `struct BezierNi<M>`).

The development shallowly embeds:
  * the Layout Codec: the count-dependent byte offsets of every packed
    field of a primitive block (the accessor methods of `BezierNi`);
  * the size laws `blocks`/`bytes` and the block partition performed by
    `createLeaf`;
  * the byte-level writes performed by `fill` for the identifier fields,
    over an explicit byte-store model;
  * the bound and basis quantization steps of `fill` over exact reals
    (floats are modelled as reals, which is the usual shallow embedding);
  * the aligned-space solver `computeAlignedSpace` over exact reals.

Machine integers are modelled as `Nat`/`Int` with explicit wrapping where
the source narrows a value.
-/

namespace BezierNi

/-! ## Layout Codec (accessor offsets, `bezierNi.h` lines 206-264)

Each accessor of `BezierNi` computes the address of a field as
`(char*)this + e(N)` for an expression `e` in the stored count `N` alone.
The definitions below record the byte offset `e(N)` of every field. -/

/-- Offset of the count byte (the member `N` at the start of the block). -/
def count_off : ℕ := 0

/-- Offset of the 32-bit geometry id: `(char*)this+1`. -/
def geomID_off (_N : ℕ) : ℕ := 1

/-- Offset of the 32-bit primitive id array: `(char*)this+5`. -/
def primID_off (_N : ℕ) : ℕ := 5

/-- Offset of the signed 8-bit `bounds_vx_x` array: `this+5+4*N`. -/
def bounds_vx_x_off (N : ℕ) : ℕ := 5 + 4*N

/-- Offset of the signed 8-bit `bounds_vx_y` array: `this+5+5*N`. -/
def bounds_vx_y_off (N : ℕ) : ℕ := 5 + 5*N

/-- Offset of the signed 8-bit `bounds_vx_z` array: `this+5+6*N`. -/
def bounds_vx_z_off (N : ℕ) : ℕ := 5 + 6*N

/-- Offset of the signed 16-bit `bounds_vx_lower` array: `this+5+7*N`. -/
def bounds_vx_lower_off (N : ℕ) : ℕ := 5 + 7*N

/-- Offset of the signed 16-bit `bounds_vx_upper` array: `this+5+9*N`. -/
def bounds_vx_upper_off (N : ℕ) : ℕ := 5 + 9*N

/-- Offset of the signed 8-bit `bounds_vy_x` array: `this+5+11*N`. -/
def bounds_vy_x_off (N : ℕ) : ℕ := 5 + 11*N

/-- Offset of the signed 8-bit `bounds_vy_y` array: `this+5+12*N`. -/
def bounds_vy_y_off (N : ℕ) : ℕ := 5 + 12*N

/-- Offset of the signed 8-bit `bounds_vy_z` array: `this+5+13*N`. -/
def bounds_vy_z_off (N : ℕ) : ℕ := 5 + 13*N

/-- Offset of the signed 16-bit `bounds_vy_lower` array: `this+5+14*N`. -/
def bounds_vy_lower_off (N : ℕ) : ℕ := 5 + 14*N

/-- Offset of the signed 16-bit `bounds_vy_upper` array: `this+5+16*N`. -/
def bounds_vy_upper_off (N : ℕ) : ℕ := 5 + 16*N

/-- Offset of the signed 8-bit `bounds_vz_x` array: `this+5+18*N`. -/
def bounds_vz_x_off (N : ℕ) : ℕ := 5 + 18*N

/-- Offset of the signed 8-bit `bounds_vz_y` array: `this+5+19*N`. -/
def bounds_vz_y_off (N : ℕ) : ℕ := 5 + 19*N

/-- Offset of the signed 8-bit `bounds_vz_z` array: `this+5+20*N`. -/
def bounds_vz_z_off (N : ℕ) : ℕ := 5 + 20*N

/-- Offset of the signed 16-bit `bounds_vz_lower` array: `this+5+21*N`. -/
def bounds_vz_lower_off (N : ℕ) : ℕ := 5 + 21*N

/-- Offset of the signed 16-bit `bounds_vz_upper` array: `this+5+23*N`. -/
def bounds_vz_upper_off (N : ℕ) : ℕ := 5 + 23*N

/-- Offset of the shared 3-float `offset` vector: `this+5+25*N`. -/
def offset_off (N : ℕ) : ℕ := 5 + 25*N

/-- Offset of the shared float `scale`: `this+5+25*N+12`. -/
def scale_off (N : ℕ) : ℕ := 5 + 25*N + 12

/-- One-past-the-end offset of a block, `end(N) = this+5+25*N+16`. -/
def end_off (N : ℕ) : ℕ := 5 + 25*N + 16

/-- The regions `(byte offset, byte size)` of all packed fields of a block
holding `N` primitives, in memory order. -/
def layoutRegions (N : ℕ) : List (ℕ × ℕ) :=
  [ (count_off, 1)
  , (geomID_off N, 4)
  , (primID_off N, 4*N)
  , (bounds_vx_x_off N, N)
  , (bounds_vx_y_off N, N)
  , (bounds_vx_z_off N, N)
  , (bounds_vx_lower_off N, 2*N)
  , (bounds_vx_upper_off N, 2*N)
  , (bounds_vy_x_off N, N)
  , (bounds_vy_y_off N, N)
  , (bounds_vy_z_off N, N)
  , (bounds_vy_lower_off N, 2*N)
  , (bounds_vy_upper_off N, 2*N)
  , (bounds_vz_x_off N, N)
  , (bounds_vz_y_off N, N)
  , (bounds_vz_z_off N, N)
  , (bounds_vz_lower_off N, 2*N)
  , (bounds_vz_upper_off N, 2*N)
  , (offset_off N, 12)
  , (scale_off N, 4) ]

/-- Two byte regions `(offset, size)` are disjoint as half-open intervals. -/
def regionsDisjoint (a b : ℕ × ℕ) : Prop :=
  Disjoint (Finset.Ico a.1 (a.1 + a.2)) (Finset.Ico b.1 (b.1 + b.2))

/-! ## Size laws and leaf partition (`blocks`, `bytes`, `createLeaf`) -/

/-- Number of primitive blocks required for `n` primitives:
`blocks(N) = (N+M-1)/M`. -/
def blocks (M n : ℕ) : ℕ := (n + M - 1) / M

/-- Total byte size for `n` primitives:
`f*sizeof(BezierNi) + (r!=0)*(21+25*r)` with `sizeof(BezierNi) = 21+25*M`
(enforced by the static assertion in the source). -/
def bytes (M n : ℕ) : ℕ :=
  (n / M) * (21 + 25*M) + (if n % M ≠ 0 then 21 + 25*(n % M) else 0)

/-- The count consumed by one call of `fill` starting at position `b` with
range end `e`: the source sets `end = min(begin+M,_end); N = end-begin`. -/
def fillCount (M b e : ℕ) : ℕ := min (b + M) e - b

/-- The `(start, count)` slices consumed by `k` successive `fill` calls
advancing `begin` through the range, as the loop in `createLeaf` does. -/
def fillSlices (M : ℕ) : ℕ → ℕ → ℕ → List (ℕ × ℕ)
  | _, _, 0 => []
  | b, e, k+1 => (b, fillCount M b e) :: fillSlices M (b + fillCount M b e) e k

/-- Model of `createLeaf`: allocated byte count, the slices handed to the
successive `fill` calls, and the block count passed to `encodeLeaf`. -/
structure LeafAlloc where
  numbytes : ℕ
  slices : List (ℕ × ℕ)
  blockCount : ℕ

/-- `createLeaf` allocates `bytes(|set|)` bytes, fills `blocks(|set|)`
blocks in order, and returns `encodeLeaf(base, blocks(|set|))`. -/
def createLeaf (M b e : ℕ) : LeafAlloc :=
  ⟨bytes M (e - b), fillSlices M b e (blocks M (e - b)), blocks M (e - b)⟩

/-- The layout law claimed for a block of count `N`: every accessor offset
as a pure function of `N`, the block end at `21+25*N`, and pairwise
disjointness of all field regions. -/
def layoutSpec (N : ℕ) : Prop :=
  geomID_off N = 1 ∧ primID_off N = 5 ∧
  bounds_vx_x_off N = 5 + 4*N ∧ bounds_vx_y_off N = 5 + 5*N ∧
  bounds_vx_z_off N = 5 + 6*N ∧ bounds_vx_lower_off N = 5 + 7*N ∧
  bounds_vx_upper_off N = 5 + 9*N ∧
  bounds_vy_x_off N = 5 + 11*N ∧ bounds_vy_y_off N = 5 + 12*N ∧
  bounds_vy_z_off N = 5 + 13*N ∧ bounds_vy_lower_off N = 5 + 14*N ∧
  bounds_vy_upper_off N = 5 + 16*N ∧
  bounds_vz_x_off N = 5 + 18*N ∧ bounds_vz_y_off N = 5 + 19*N ∧
  bounds_vz_z_off N = 5 + 20*N ∧ bounds_vz_lower_off N = 5 + 21*N ∧
  bounds_vz_upper_off N = 5 + 23*N ∧
  offset_off N = 5 + 25*N ∧ scale_off N = 5 + 25*N + 12 ∧
  end_off N = 21 + 25*N ∧
  (layoutRegions N).Pairwise regionsDisjoint

/-! ## Byte-store model

`fill` writes the packed fields through raw pointers; we model the block
memory as a byte-addressed store and each pointer store as little-endian
byte writes narrowed mod 256. -/

/-- A byte-addressed store; address to byte value. -/
def Store : Type := ℕ → ℕ

/-- Write one byte (a store through a char pointer narrows mod 256). -/
def write8 (st : Store) (off v : ℕ) : Store :=
  fun i => if i = off then v % 256 else st i

/-- Write a 16-bit value, little endian. -/
def write16 (st : Store) (off v : ℕ) : Store :=
  write8 (write8 st off (v % 256)) (off + 1) (v / 256 % 256)

/-- Write a 32-bit value, little endian. -/
def write32 (st : Store) (off v : ℕ) : Store :=
  write16 (write16 st off (v % 65536)) (off + 2) (v / 65536)

/-- Read one byte. -/
def read8 (st : Store) (off : ℕ) : ℕ := st off

/-- Read a 16-bit value, little endian. -/
def read16 (st : Store) (off : ℕ) : ℕ :=
  read8 st off + 256 * read8 st (off + 1)

/-- Read a 32-bit value, little endian. -/
def read32 (st : Store) (off : ℕ) : ℕ :=
  read16 st off + 65536 * read16 st (off + 2)

/-- Unsigned byte holding a signed 8-bit value (two's complement). -/
def toByte (z : ℤ) : ℕ := (z % 256).toNat

/-- Unsigned 16-bit word holding a signed 16-bit value (two's complement). -/
def toWord (z : ℤ) : ℕ := (z % 65536).toNat

/-- Signed interpretation of a stored byte. -/
def fromByte (w : ℕ) : ℤ :=
  if w % 256 < 128 then (w % 256 : ℤ) else (w % 256 : ℤ) - 256

/-- Signed interpretation of a stored 16-bit word. -/
def fromWord (w : ℕ) : ℤ :=
  if w % 65536 < 32768 then (w % 65536 : ℤ) else (w % 65536 : ℤ) - 65536

/-- A primitive reference: its geometry id and primitive id, as held in
the builder's `PrimRef` array. -/
@[ext]
structure PrimRef where
  geomID : ℕ
  primID : ℕ

/-- Modelled from the spec: the composite identifier combining geometry id
and primitive id into one 64-bit ordering key. The accessor `ID64` of
`PrimRef` is declared outside this header; the spec (§4.2, glossary)
describes it as the two 32-bit ids combined into one ordering key, the
geometry id being the high half. -/
def PrimRef.ID64 (p : PrimRef) : ℕ := p.geomID * 2^32 + p.primID

/-- Sentinel initializer of the best-id tracker in `computeAlignedSpace`:
the value of `(uint64_t)(-1)`. -/
def sentinelID : ℕ := 2^64 - 1

/-- The quantized per-primitive payload written by one iteration of the
encode loop of `fill` (basis components and bound words, as integers). -/
structure PrimPayload where
  vx_x : ℤ
  vx_y : ℤ
  vx_z : ℤ
  vx_lower : ℤ
  vx_upper : ℤ
  vy_x : ℤ
  vy_y : ℤ
  vy_z : ℤ
  vy_lower : ℤ
  vy_upper : ℤ
  vz_x : ℤ
  vz_y : ℤ
  vz_z : ℤ
  vz_lower : ℤ
  vz_upper : ℤ

/-- The writes of one iteration of the encode loop of `fill`, in source
order: the nine basis bytes and six bound words of primitive `i`, then its
primitive id. -/
def writePrim (N : ℕ) (st : Store) (i : ℕ) (p : PrimPayload) (pid : ℕ) :
    Store :=
  write32
    (write16
      (write16
        (write8
          (write8
            (write8
              (write16
                (write16
                  (write8
                    (write8
                      (write8
                        (write16
                          (write16
                            (write8
                              (write8
                                (write8 st (bounds_vx_x_off N + i)
                                  (toByte p.vx_x))
                                (bounds_vx_y_off N + i) (toByte p.vx_y))
                              (bounds_vx_z_off N + i) (toByte p.vx_z))
                            (bounds_vx_lower_off N + 2*i) (toWord p.vx_lower))
                          (bounds_vx_upper_off N + 2*i) (toWord p.vx_upper))
                        (bounds_vy_x_off N + i) (toByte p.vy_x))
                      (bounds_vy_y_off N + i) (toByte p.vy_y))
                    (bounds_vy_z_off N + i) (toByte p.vy_z))
                  (bounds_vy_lower_off N + 2*i) (toWord p.vy_lower))
                (bounds_vy_upper_off N + 2*i) (toWord p.vy_upper))
              (bounds_vz_x_off N + i) (toByte p.vz_x))
            (bounds_vz_y_off N + i) (toByte p.vz_y))
          (bounds_vz_z_off N + i) (toByte p.vz_z))
        (bounds_vz_lower_off N + 2*i) (toWord p.vz_lower))
      (bounds_vz_upper_off N + 2*i) (toWord p.vz_upper))
    (primID_off N + 4*i) pid

/-- The encode loop of `fill` over primitives `0..k-1`. -/
def fillPrims (N : ℕ) (pay : ℕ → PrimPayload) (pids : ℕ → ℕ)
    (st : Store) : ℕ → Store
  | 0 => st
  | k+1 => writePrim N (fillPrims N pay pids st k) k (pay k) (pids k)

/-- The full write sequence of `fill` on the slice starting at `b` with
range end `e`: count byte, geometry id, shared offset vector and scale
(their four 32-bit float words given opaquely as `ow`/`sw`), then the
per-primitive encode loop. -/
def fillStore (M b e : ℕ) (prims : ℕ → PrimRef) (pay : ℕ → PrimPayload)
    (ow : ℕ → ℕ) (sw : ℕ) (st : Store) : Store :=
  let N := fillCount M b e
  fillPrims N (fun i => pay (b + i)) (fun i => (prims (b + i)).primID)
    (write32
      (write32
        (write32
          (write32
            (write32 (write8 st count_off N) (geomID_off N)
              (prims b).geomID)
            (offset_off N) (ow 0))
          (offset_off N + 4) (ow 1))
        (offset_off N + 8) (ow 2))
      (scale_off N) sw)
    N

/-! ## Bound and basis quantization (`fill`, lines 127-152) -/

/-- Stored lower-bound word before narrowing:
`clamp(floor(x), -32767.0f, 32767.0f)` as an integer. -/
noncomputable def quantLower (x : ℝ) : ℤ := max (-32767) (min 32767 ⌊x⌋)

/-- Stored upper-bound word before narrowing:
`clamp(ceil(x), -32767.0f, 32767.0f)` as an integer. -/
noncomputable def quantUpper (x : ℝ) : ℤ := max (-32767) (min 32767 ⌈x⌉)

/-- Float truncation toward zero (`trunc`): floor for nonnegative inputs,
ceiling for negative ones. -/
noncomputable def rtrunc (x : ℝ) : ℤ := if 0 ≤ x then ⌊x⌋ else ⌈x⌉

/-- The stored 8-bit basis component for a unit-frame component `c`:
`trunc(126.0f*c)`. -/
noncomputable def basisQuant (c : ℝ) : ℤ := rtrunc (126 * c)

/-! ## Vectors and linear spaces (floats modelled as reals) -/

/-- A 3-component vector (`Vec3fa`, w component irrelevant here). -/
@[ext]
structure Vec3 where
  x : ℝ
  y : ℝ
  z : ℝ

instance : Sub Vec3 := ⟨fun a b => ⟨a.x - b.x, a.y - b.y, a.z - b.z⟩⟩

instance : SMul ℝ Vec3 := ⟨fun c v => ⟨c * v.x, c * v.y, c * v.z⟩⟩

/-- Dot product. -/
def Vec3.dot (a b : Vec3) : ℝ := a.x * b.x + a.y * b.y + a.z * b.z

/-- Cross product. -/
def Vec3.cross (a b : Vec3) : Vec3 :=
  ⟨a.y * b.z - a.z * b.y, a.z * b.x - a.x * b.z, a.x * b.y - a.y * b.x⟩

/-- Squared length (`sqr_length`). -/
def Vec3.sqrLength (a : Vec3) : ℝ := Vec3.dot a a

/-- Euclidean length (`length`). -/
noncomputable def Vec3.length (a : Vec3) : ℝ := Real.sqrt a.sqrLength

/-- `normalize(v) = v * rsqrt(dot(v,v))`. -/
noncomputable def Vec3.normalize (a : Vec3) : Vec3 := (1 / a.length) • a

/-- A 3x3 linear space given by its three column vectors
(`LinearSpace3fa(vx,vy,vz)`). -/
structure LinSpace where
  vx : Vec3
  vy : Vec3
  vz : Vec3

/-- Modelled from the spec: the geometry source (external collaborator,
spec section 6) maps a geometry id and primitive id to the curve's first
vertex index (`mesh->curve(primID)`) and a vertex index to a control
point (`mesh->vertex(-)`). -/
structure Scene where
  curveVtx : ℕ → ℕ → ℕ
  vertex : ℕ → ℕ → Vec3

/-- The `k`-th offset/scale-adjusted control point of a primitive:
`(mesh->vertex(vtxID+k)-offset)*scale`. -/
def ctrlPt (sc : Scene) (off : Vec3) (scl : ℝ) (g p k : ℕ) : Vec3 :=
  scl • (sc.vertex g (sc.curveVtx g p + k) - off)

/-- Modelled from the spec: the chord of a curve, the vector from curve
start point to curve end point (for the cubic curve these are the first
and last control points). -/
def chordOf (sc : Scene) (off : Vec3) (scl : ℝ) (pr : PrimRef) : Vec3 :=
  ctrlPt sc off scl pr.geomID pr.primID 3 - ctrlPt sc off scl pr.geomID pr.primID 0

/-- Modelled from the spec: the curve derivative at parameter 0
(`curve.eval_du(0.0f)`); for the cubic Bezier curve this is three times
the difference of the first two control points. -/
def derivOf (sc : Scene) (off : Vec3) (scl : ℝ) (pr : PrimRef) : Vec3 :=
  (3 : ℝ) • (ctrlPt sc off scl pr.geomID pr.primID 1 -
    ctrlPt sc off scl pr.geomID pr.primID 0)

/-- The tangent axis a primitive defines: normalized adjusted chord
(`axisz_` in the loop body). -/
noncomputable def axeszOf (sc : Scene) (off : Vec3) (scl : ℝ)
    (pr : PrimRef) : Vec3 :=
  Vec3.normalize (chordOf sc off scl pr)

/-- The secondary axis a primitive defines: cross of its tangent axis and
its curve derivative at parameter 0 (`axisy_` in the loop body). -/
noncomputable def axesyOf (sc : Scene) (off : Vec3) (scl : ℝ)
    (pr : PrimRef) : Vec3 :=
  Vec3.cross (axeszOf sc off scl pr) (derivOf sc off scl pr)

/-- The degeneracy threshold of the aligned-space solver (the literal
`1E-18` in both chord and secondary-axis tests). -/
noncomputable def epsDegen : ℝ := 1 / 10^18

/-- A primitive defines a valid direction: its adjusted chord has squared
length above the threshold. -/
def validChord (sc : Scene) (off : Vec3) (scl : ℝ) (pr : PrimRef) : Prop :=
  epsDegen < Vec3.sqrLength (chordOf sc off scl pr)

noncomputable instance (sc : Scene) (off : Vec3) (scl : ℝ) (pr : PrimRef) :
    Decidable (validChord sc off scl pr) := by
  unfold validChord
  infer_instance

/-- The loop state of `computeAlignedSpace`: current axes and best id. -/
structure CASState where
  axisz : Vec3
  axisy : Vec3
  best : ℕ

/-- One iteration of the selection loop of `computeAlignedSpace`: skip
when the composite id is not strictly below the best one; otherwise
compute the candidate axes from the adjusted control points
(`axisz' = normalize(p3-p0)`, `axisy' = cross(axisz', d0)`) and commit
them together with the id when the chord test passes. -/
noncomputable def casStep (sc : Scene) (off : Vec3) (scl : ℝ)
    (s : CASState) (pr : PrimRef) : CASState :=
  if s.best ≤ pr.ID64 then s
  else if epsDegen < Vec3.sqrLength (chordOf sc off scl pr) then
    ⟨axeszOf sc off scl pr, axesyOf sc off scl pr, pr.ID64⟩
  else s

/-- The initial loop state: default axes `(0,0,1)`, `(0,1,0)` and the
sentinel best id. -/
def casInit : CASState := ⟨⟨0, 0, 1⟩, ⟨0, 1, 0⟩, sentinelID⟩

/-- The full selection loop over a range of primitives. -/
noncomputable def casLoop (sc : Scene) (off : Vec3) (scl : ℝ)
    (l : List PrimRef) : CASState :=
  l.foldl (casStep sc off scl) casInit

/-- Modelled from the spec: the standard single-vector-to-orthonormal-basis
construction `frame(N)` (external collaborator of this header): two
candidate tangents from crossing with the coordinate axes, the larger one
kept, completed to a basis by a further cross product. -/
noncomputable def frame (n : Vec3) : LinSpace :=
  let dx0 := Vec3.cross ⟨1, 0, 0⟩ n
  let dx1 := Vec3.cross ⟨0, 1, 0⟩ n
  let dx := Vec3.normalize
    (if Vec3.dot dx1 dx1 < Vec3.dot dx0 dx0 then dx0 else dx1)
  let dy := Vec3.normalize (Vec3.cross n dx)
  ⟨dx, dy, n⟩

/-- `computeAlignedSpace`: run the selection loop, then either assemble
the basis from the selected axes or fall back to the canonical frame. -/
noncomputable def computeAlignedSpace (sc : Scene) (l : List PrimRef)
    (off : Vec3) (scl : ℝ) : LinSpace :=
  let s := casLoop sc off scl l
  if epsDegen < Vec3.sqrLength s.axisy then
    let ay := Vec3.normalize s.axisy
    ⟨Vec3.normalize (Vec3.cross ay s.axisz), ay, s.axisz⟩
  else frame s.axisz

/-- The basis the claim predicts for the selected primitive: tangent is
the normalized chord, secondary is the normalized cross of tangent and
derivative, third completes the frame. -/
noncomputable def claimedFrame (sc : Scene) (off : Vec3) (scl : ℝ)
    (pr : PrimRef) : LinSpace :=
  ⟨Vec3.normalize (Vec3.cross (Vec3.normalize (axesyOf sc off scl pr))
      (axeszOf sc off scl pr)),
    Vec3.normalize (axesyOf sc off scl pr), axeszOf sc off scl pr⟩

/-- A right-handed orthonormal frame: pairwise orthogonal unit columns
with the first column the cross product of the other two. -/
def isOrthoRH (L : LinSpace) : Prop :=
  Vec3.dot L.vx L.vy = 0 ∧ Vec3.dot L.vy L.vz = 0 ∧
  Vec3.dot L.vx L.vz = 0 ∧
  Vec3.sqrLength L.vx = 1 ∧ Vec3.sqrLength L.vy = 1 ∧
  Vec3.sqrLength L.vz = 1 ∧
  L.vx = Vec3.cross L.vy L.vz

/-! ## Shared offset/scale and the quantized bound query (`fill`) -/

/-- An axis-aligned box. -/
structure Box where
  lower : Vec3
  upper : Vec3

/-- `bounds.size()`. -/
def Box.size (B : Box) : Vec3 := B.upper - B.lower

/-- Membership of a point in a box, componentwise. -/
def Box.mem (B : Box) (p : Vec3) : Prop :=
  B.lower.x ≤ p.x ∧ p.x ≤ B.upper.x ∧ B.lower.y ≤ p.y ∧ p.y ≤ B.upper.y ∧
  B.lower.z ≤ p.z ∧ p.z ≤ B.upper.z

/-- Componentwise box containment. -/
def Box.sub (P B : Box) : Prop :=
  B.lower.x ≤ P.lower.x ∧ P.upper.x ≤ B.upper.x ∧
  B.lower.y ≤ P.lower.y ∧ P.upper.y ≤ B.upper.y ∧
  B.lower.z ≤ P.lower.z ∧ P.upper.z ≤ B.upper.z

/-- The shared block offset chosen by `fill`: `loffset = bounds.lower`. -/
def loffsetOf (B : Box) : Vec3 := B.lower

/-- The shared block scale chosen by `fill`:
`lscale = reduce_min(256.0f/(bounds.size()*sqrt(3.0f)))`. -/
noncomputable def lscaleOf (B : Box) : ℝ :=
  min (256 / (B.size.x * Real.sqrt 3))
    (min (256 / (B.size.y * Real.sqrt 3)) (256 / (B.size.z * Real.sqrt 3)))

/-- Componentwise truncation toward zero of a vector (`trunc` on
`Vec3fa`). -/
noncomputable def vtrunc (v : Vec3) : Vec3 :=
  ⟨(rtrunc v.x : ℝ), (rtrunc v.y : ℝ), (rtrunc v.z : ℝ)⟩

/-- The quantized basis built by `fill`:
`space3 = LinearSpace3fa(trunc(126.0f*vx), trunc(126.0f*vy), trunc(126.0f*vz))`. -/
noncomputable def quantFrame (L : LinSpace) : LinSpace :=
  ⟨vtrunc ((126 : ℝ) • L.vx), vtrunc ((126 : ℝ) • L.vy),
    vtrunc ((126 : ℝ) • L.vz)⟩

/-- The inflation radius passed to the bound query:
`max(length(space3.vx), length(space3.vy), length(space3.vz))`. -/
noncomputable def inflationOf (L : LinSpace) : ℝ :=
  max L.vx.length (max L.vy.length L.vz.length)

/-- The eight corners of a box. -/
def Box.corners (P : Box) : List Vec3 :=
  [⟨P.lower.x, P.lower.y, P.lower.z⟩, ⟨P.lower.x, P.lower.y, P.upper.z⟩,
   ⟨P.lower.x, P.upper.y, P.lower.z⟩, ⟨P.lower.x, P.upper.y, P.upper.z⟩,
   ⟨P.upper.x, P.lower.y, P.lower.z⟩, ⟨P.upper.x, P.lower.y, P.upper.z⟩,
   ⟨P.upper.x, P.upper.y, P.lower.z⟩, ⟨P.upper.x, P.upper.y, P.upper.z⟩]

/-- The coordinate of the affinely mapped point `p` along the basis
vector `a`: one component of `space3.transposed()` applied to
`(p - offset) * scale`. -/
noncomputable def coordAlong (a off : Vec3) (scl : ℝ) (p : Vec3) : ℝ :=
  Vec3.dot a (scl • (p - off))

/-- Modelled from the spec: one component of the lower corner of the
rotated/scaled/inflated bound returned by the geometry query
(`NativeCurves::bounds(offset,scale,inflation,space,primID)`, an external
collaborator): the smallest coordinate of the primitive's bound corners
along the basis vector, inflated downward by the inflation radius. -/
noncomputable def queryLower (a off : Vec3) (scl infl : ℝ) (P : Box) : ℝ :=
  (P.corners.map (coordAlong a off scl)).foldr min
    (coordAlong a off scl P.upper) - infl

/-- Modelled from the spec: one component of the upper corner of the
rotated/scaled/inflated bound returned by the geometry query: the largest
coordinate of the primitive's bound corners along the basis vector,
inflated upward by the inflation radius. -/
noncomputable def queryUpper (a off : Vec3) (scl infl : ℝ) (P : Box) : ℝ :=
  (P.corners.map (coordAlong a off scl)).foldr max
    (coordAlong a off scl P.lower) + infl

/-- The claimed range safety of a quantized per-primitive bound along the
axis `a`: both development-time assertions of `fill` hold and the clamp
of the quantization step changes nothing. -/
def quantRangeOK (B P : Box) (u : LinSpace) (a : Vec3) : Prop :=
  -32767 ≤
    ⌊queryLower a (loffsetOf B) (lscaleOf B) (inflationOf (quantFrame u)) P⌋ ∧
  ⌊queryLower a (loffsetOf B) (lscaleOf B) (inflationOf (quantFrame u)) P⌋
    ≤ 32767 ∧
  -32767 ≤
    ⌈queryUpper a (loffsetOf B) (lscaleOf B) (inflationOf (quantFrame u)) P⌉ ∧
  ⌈queryUpper a (loffsetOf B) (lscaleOf B) (inflationOf (quantFrame u)) P⌉
    ≤ 32767 ∧
  quantLower
      (queryLower a (loffsetOf B) (lscaleOf B) (inflationOf (quantFrame u)) P) =
    ⌊queryLower a (loffsetOf B) (lscaleOf B) (inflationOf (quantFrame u)) P⌋ ∧
  quantUpper
      (queryUpper a (loffsetOf B) (lscaleOf B) (inflationOf (quantFrame u)) P) =
    ⌈queryUpper a (loffsetOf B) (lscaleOf B) (inflationOf (quantFrame u)) P⌉

/-! ## Concrete instances used to exercise the theorems -/

/-- A concrete scene: every curve starts at the origin, has second control
point `(0,1,0)` and end point `(1,0,0)`. -/
def wScene : Scene :=
  ⟨fun _ _ => 0,
   fun _ k => if k = 1 then ⟨0, 1, 0⟩ else if k = 3 then ⟨1, 0, 0⟩
     else ⟨0, 0, 0⟩⟩

/-- A concrete scene whose every curve is a single point (all chords
degenerate). -/
def wSceneDegen : Scene := ⟨fun _ _ => 0, fun _ _ => ⟨0, 0, 0⟩⟩

/-- A concrete primitive reference with the smallest composite id. -/
def wPrim : PrimRef := ⟨0, 0⟩

/-- A concrete primitive reference whose composite id is the sentinel
`2^64 - 1`. -/
def wPrimMax : PrimRef := ⟨2^32 - 1, 2^32 - 1⟩

/-- A second concrete primitive reference, distinct from `wPrim`. -/
def wPrimB : PrimRef := ⟨0, 1⟩

/-- A concrete primitive array sharing geometry id 7. -/
def wPrims : ℕ → PrimRef := fun i => ⟨7, 100 + i⟩

/-- A concrete all-zero per-primitive payload. -/
def wPay : ℕ → PrimPayload :=
  fun _ => ⟨0, 0, 0, 0, 0, 0, 0, 0, 0, 0, 0, 0, 0, 0, 0⟩

/-- A concrete all-zero byte store. -/
def wStore : Store := fun _ => 0

/-- The unit box. -/
def wBox : Box := ⟨⟨0, 0, 0⟩, ⟨1, 1, 1⟩⟩

/-- The identity orientation frame. -/
def wFrame : LinSpace := ⟨⟨1, 0, 0⟩, ⟨0, 1, 0⟩, ⟨0, 0, 1⟩⟩

/-- The properties claimed of the leaf allocation of `createLeaf`. -/
def createLeafSpec (M b e : ℕ) : Prop :=
  (createLeaf M b e).blockCount = (e - b) ⌈/⌉ M ∧
  (createLeaf M b e).numbytes = bytes M (e - b) ∧
  (createLeaf M b e).numbytes =
    (((createLeaf M b e).slices.map fun p => 21 + 25*p.2).sum) ∧
  (createLeaf M b e).slices.length = (createLeaf M b e).blockCount ∧
  ((createLeaf M b e).slices.map Prod.snd).sum = e - b ∧
  (∀ i (h : i + 1 < (createLeaf M b e).slices.length)
      (h' : i < (createLeaf M b e).slices.length),
    ((createLeaf M b e).slices.get ⟨i+1, h⟩).1 =
      ((createLeaf M b e).slices.get ⟨i, h'⟩).1 +
        ((createLeaf M b e).slices.get ⟨i, h'⟩).2) ∧
  (∀ h : 0 < (createLeaf M b e).slices.length,
    ((createLeaf M b e).slices.get ⟨0, h⟩).1 = b) ∧
  ((createLeaf 4 0 7).slices.map fun p => 21 + 25*p.2) = [121, 96]

/-! ## Helper lemmas -/

theorem disjoint_Ico_of_le {a b c d : ℕ} (h : b ≤ c) :
    Disjoint (Finset.Ico a b) (Finset.Ico c d) := by
  rw [Finset.disjoint_left]
  intro k hk hk2
  rw [Finset.mem_Ico] at hk hk2
  omega

theorem layoutRegions_ordered (N : ℕ) :
    (layoutRegions N).Pairwise (fun a b => a.1 + a.2 ≤ b.1) := by
  simp only [layoutRegions, count_off, geomID_off, primID_off,
    bounds_vx_x_off, bounds_vx_y_off, bounds_vx_z_off, bounds_vx_lower_off,
    bounds_vx_upper_off, bounds_vy_x_off, bounds_vy_y_off, bounds_vy_z_off,
    bounds_vy_lower_off, bounds_vy_upper_off, bounds_vz_x_off,
    bounds_vz_y_off, bounds_vz_z_off, bounds_vz_lower_off,
    bounds_vz_upper_off, offset_off, scale_off, List.pairwise_cons]
  simp only [List.mem_cons, List.mem_singleton, List.not_mem_nil, or_false,
    forall_eq_or_imp, forall_eq, false_implies, implies_true, and_true,
    List.Pairwise.nil]
  omega

theorem fillSlices_length (M e : ℕ) :
    ∀ k b, (fillSlices M b e k).length = k := by
  intro k
  induction k with
  | zero => intro b; rfl
  | succ k ih => intro b; simp [fillSlices, ih]

theorem fillSlices_chain (M e : ℕ) :
    ∀ k b i (h : i + 1 < (fillSlices M b e k).length)
      (h' : i < (fillSlices M b e k).length),
      ((fillSlices M b e k).get ⟨i+1, h⟩).1 =
        ((fillSlices M b e k).get ⟨i, h'⟩).1 +
          ((fillSlices M b e k).get ⟨i, h'⟩).2 := by
  intro k
  induction k with
  | zero => intro b i h h'; simp [fillSlices] at h
  | succ k ih =>
    intro b i h h'
    match i with
    | 0 =>
      match k, h with
      | k+1, _ => rfl
    | i+1 =>
      exact ih (b + fillCount M b e) i _ _

theorem blocks_zero {M n : ℕ} (hM : 1 ≤ M) (h : blocks M n = 0) :
    n = 0 := by
  unfold blocks at h
  rw [Nat.div_eq_zero_iff (by omega)] at h
  omega

theorem blocks_one {M n : ℕ} (hM : 1 ≤ M) (h1 : 1 ≤ n) (h2 : n ≤ M) :
    blocks M n = 1 := by
  unfold blocks
  exact Nat.div_eq_of_lt_le (by omega) (by omega)

theorem bytes_zero (M : ℕ) : bytes M 0 = 0 := by
  simp [bytes]

theorem bytes_small {M n : ℕ} (hM : 1 ≤ M) (h1 : 1 ≤ n) (h2 : n ≤ M) :
    bytes M n = 21 + 25 * n := by
  rcases lt_or_eq_of_le h2 with h | h
  · unfold bytes
    rw [Nat.div_eq_of_lt h, Nat.mod_eq_of_lt h]
    simp only [zero_mul, zero_add, ne_eq, ite_not]
    rw [if_neg (by omega)]
  · unfold bytes
    rw [h, Nat.div_self (by omega), Nat.mod_self]
    simp only [one_mul, ne_eq, not_true_eq_false, if_false, add_zero]

theorem bytes_add_M {M n : ℕ} (hM : 1 ≤ M) :
    bytes M (n + M) = 21 + 25*M + bytes M n := by
  unfold bytes
  rw [Nat.add_div_right _ (by omega), Nat.add_mod_right]
  split_ifs <;> ring

theorem fillSlices_main (M : ℕ) (hM : 1 ≤ M) :
    ∀ k b e, blocks M (e - b) = k →
      ((fillSlices M b e k).map Prod.snd).sum = e - b ∧
      ((fillSlices M b e k).map fun p => 21 + 25*p.2).sum =
        bytes M (e - b) := by
  intro k
  induction k with
  | zero =>
    intro b e hb
    have h0 : e - b = 0 := blocks_zero hM hb
    rw [h0, bytes_zero]
    simp [fillSlices]
  | succ k ih =>
    intro b e hb
    have hn1 : 1 ≤ e - b := by
      by_contra h
      have h0 : e - b = 0 := by omega
      rw [h0] at hb
      unfold blocks at hb
      rw [Nat.div_eq_of_lt (by omega)] at hb
      omega
    rcases le_or_lt (e - b) M with hle | hlt
    · -- final, possibly partial, block
      have hc : fillCount M b e = e - b := by unfold fillCount; omega
      have hb1 : blocks M (e - b) = 1 := blocks_one hM hn1 hle
      have hk0 : k = 0 := by omega
      subst hk0
      rw [bytes_small hM hn1 hle]
      simp [fillSlices, hc]
    · -- full block of M primitives, then recurse
      have hc : fillCount M b e = M := by unfold fillCount; omega
      have hsub : e - (b + M) = (e - b) - M := by omega
      have hbl : blocks M ((e - b) - M) = k := by
        unfold blocks at hb ⊢
        have h2 : (e - b) + M - 1 = ((e - b) - M + M - 1) + M := by omega
        rw [h2, Nat.add_div_right _ (by omega)] at hb
        omega
      obtain ⟨ihs, ihb⟩ := ih (b + M) e (by rw [hsub]; exact hbl)
      have hby : bytes M (e - b) = 21 + 25*M + bytes M ((e - b) - M) := by
        have h3 : e - b = ((e - b) - M) + M := by omega
        have h4 := @bytes_add_M M ((e - b) - M) hM
        rw [← h3] at h4
        exact h4
      constructor
      · simp only [fillSlices, hc, List.map_cons, List.sum_cons, ihs]
        omega
      · simp only [fillSlices, hc, List.map_cons, List.sum_cons, ihb, hsub,
          hby]

theorem fillSlices_head (M e : ℕ) :
    ∀ k b (h : 0 < (fillSlices M b e k).length),
      ((fillSlices M b e k).get ⟨0, h⟩).1 = b := by
  intro k
  cases k with
  | zero => intro b h; simp [fillSlices] at h
  | succ k => intro b h; rfl

/-! ## Claim theorems -/

/-- C2: for every count N with 1 ≤ N ≤ M, the accessors compute the field
offsets as pure functions of N and base only, with the offsets listed in
the claim; the block ends at 21+25N bytes and all field regions are
pairwise disjoint within the block. -/
theorem claim_C2 (M N : ℕ) (h1 : 1 ≤ N) (h2 : N ≤ M) : layoutSpec N := by
  refine ⟨rfl, rfl, rfl, rfl, rfl, rfl, rfl, rfl, rfl, rfl, rfl, rfl, rfl,
    rfl, rfl, rfl, rfl, rfl, rfl, ?_, ?_⟩
  · unfold end_off; omega
  · exact (layoutRegions_ordered N).imp fun h => disjoint_Ico_of_le h

/-- Witness for C2: the layout law holds at the concrete count N = 2 with
M = 4. -/
theorem claim_C2_witness : 1 ≤ 2 ∧ 2 ≤ 4 ∧ layoutSpec 2 :=
  ⟨by norm_num, by norm_num, claim_C2 4 2 (by norm_num) (by norm_num)⟩

/-- C3: for every range with at least one primitive and M ≥ 1, the block
count is the ceiling of the size over M, the allocated byte count obeys
the size law and equals the sum of the per-block byte sizes, fill is
called once per block on consecutive disjoint sub-slices starting at the
range start and exhausting it, the leaf is encoded with the block count,
and the M = 4, size 7 case gives two blocks of 121 and 96 bytes. -/
theorem claim_C3 (M b e : ℕ) (hM : 1 ≤ M) (hn : 1 ≤ e - b) :
    createLeafSpec M b e := by
  obtain ⟨hsum, hbytes⟩ := fillSlices_main M hM (blocks M (e - b)) b e rfl
  refine ⟨?_, rfl, ?_, ?_, hsum, ?_, ?_, ?_⟩
  · show blocks M (e - b) = (e - b) ⌈/⌉ M
    rw [Nat.ceilDiv_eq_add_pred_div]
    rfl
  · exact hbytes.symm
  · exact fillSlices_length M e _ b
  · intro i h h'
    exact fillSlices_chain M e _ b i h h'
  · exact fillSlices_head M e _ b
  · rfl

/-- Witness for C3 at M = 4 over the range `[0, 7)`. -/
theorem claim_C3_witness : 1 ≤ 4 ∧ 1 ≤ 7 - 0 ∧ createLeafSpec 4 0 7 :=
  ⟨by norm_num, by norm_num, claim_C3 4 0 7 (by norm_num) (by norm_num)⟩

theorem word_roundtrip {z : ℤ} (h1 : -32768 ≤ z) (h2 : z ≤ 32767) :
    fromWord (toWord z) = z := by
  unfold fromWord toWord
  split_ifs <;> omega

theorem byte_roundtrip {z : ℤ} (h1 : -128 ≤ z) (h2 : z ≤ 127) :
    fromByte (toByte z) = z := by
  unfold fromByte toByte
  split_ifs <;> omega

theorem rtrunc_abs_le (x : ℝ) : (|rtrunc x| : ℝ) ≤ |x| := by
  unfold rtrunc
  split_ifs with hx
  · rw [abs_of_nonneg hx,
      abs_of_nonneg (by exact_mod_cast Int.floor_nonneg.mpr hx)]
    exact_mod_cast Int.floor_le x
  · push_neg at hx
    have hc : ⌈x⌉ ≤ 0 := Int.ceil_le.mpr (by exact_mod_cast hx.le)
    rw [abs_of_neg hx, abs_of_nonpos (by exact_mod_cast hc)]
    have := Int.le_ceil x
    linarith

/-- C1 (amended): each stored lower word is clamp(floor l), each stored
upper word is clamp(ceil u), the 16-bit narrowing loses nothing, and the
stored bound only widens whenever the unquantized component lies inside
the representable window (lower at least -32767, upper at most 32767),
which is exactly the condition checked by the assertions in fill. -/
theorem claim_C1 (l u : ℝ) (hl : -32767 ≤ l) (hu : u ≤ 32767) :
    quantLower l = max (-32767) (min 32767 ⌊l⌋) ∧
    quantUpper u = max (-32767) (min 32767 ⌈u⌉) ∧
    fromWord (toWord (quantLower l)) = quantLower l ∧
    fromWord (toWord (quantUpper u)) = quantUpper u ∧
    (quantLower l : ℝ) ≤ l ∧ u ≤ (quantUpper u : ℝ) := by
  refine ⟨rfl, rfl, ?_, ?_, ?_, ?_⟩
  · exact word_roundtrip (by unfold quantLower; omega)
      (by unfold quantLower; omega)
  · exact word_roundtrip (by unfold quantUpper; omega)
      (by unfold quantUpper; omega)
  · unfold quantLower
    push_cast
    refine max_le hl (le_trans (min_le_right _ _) (Int.floor_le l))
  · unfold quantUpper
    push_cast
    refine le_trans (le_min hu (Int.le_ceil u)) (le_max_right _ _)

/-- Counterexample to C1 as stated: at a lower-bound component of -32768
the clamp raises the stored lower bound to -32767, strictly above the
unquantized value, so the stored bound narrows rather than widens. -/
theorem claim_C1_cex :
    quantLower (-32768) = -32767 ∧
    ¬ ((quantLower (-32768) : ℝ) ≤ -32768) := by
  have h : quantLower (-32768) = -32767 := by
    unfold quantLower
    norm_num
  refine ⟨h, ?_⟩
  rw [h]
  norm_num

/-- Witness for C1 at the in-window components l = u = 1/2. -/
theorem claim_C1_witness :
    (-32767 ≤ (1/2 : ℝ)) ∧ ((1/2 : ℝ) ≤ 32767) ∧
    (quantLower (1/2) = max (-32767) (min 32767 ⌊(1/2 : ℝ)⌋) ∧
     quantUpper (1/2) = max (-32767) (min 32767 ⌈(1/2 : ℝ)⌉) ∧
     fromWord (toWord (quantLower (1/2))) = quantLower (1/2) ∧
     fromWord (toWord (quantUpper (1/2))) = quantUpper (1/2) ∧
     (quantLower (1/2) : ℝ) ≤ 1/2 ∧ (1/2 : ℝ) ≤ (quantUpper (1/2) : ℝ)) :=
  ⟨by norm_num, by norm_num, claim_C1 (1/2) (1/2) (by norm_num) (by norm_num)⟩

/-- C7: each stored 8-bit basis component is trunc(126 c); for a unit
frame component (magnitude at most one) it lies in [-126, 126], survives
the short-then-char narrowing unchanged, and its magnitude never exceeds
126 times the true component's magnitude. -/
theorem claim_C7 (c : ℝ) (h : |c| ≤ 1) :
    basisQuant c = rtrunc (126 * c) ∧
    -126 ≤ basisQuant c ∧ basisQuant c ≤ 126 ∧
    fromWord (toWord (basisQuant c)) = basisQuant c ∧
    fromByte (toByte (basisQuant c)) = basisQuant c ∧
    (|basisQuant c| : ℝ) ≤ 126 * |c| := by
  have habs : (|basisQuant c| : ℝ) ≤ 126 * |c| := by
    have h1 := rtrunc_abs_le (126 * c)
    unfold basisQuant
    rwa [abs_mul, abs_of_nonneg (by norm_num : (0:ℝ) ≤ 126)] at h1
  have hb : (|basisQuant c| : ℝ) ≤ 126 := by
    calc (|basisQuant c| : ℝ) ≤ 126 * |c| := habs
    _ ≤ 126 * 1 := by linarith
    _ = 126 := by norm_num
  have hz : |basisQuant c| ≤ 126 := by exact_mod_cast hb
  obtain ⟨hlo, hhi⟩ := abs_le.mp hz
  exact ⟨rfl, hlo, hhi, word_roundtrip (by omega) (by omega),
    byte_roundtrip (by omega) (by omega), habs⟩

/-- Witness for C7 at the component c = 1/2. -/
theorem claim_C7_witness :
    |(1/2 : ℝ)| ≤ 1 ∧
    (basisQuant (1/2) = rtrunc (126 * (1/2)) ∧
     -126 ≤ basisQuant (1/2) ∧ basisQuant (1/2) ≤ 126 ∧
     fromWord (toWord (basisQuant (1/2))) = basisQuant (1/2) ∧
     fromByte (toByte (basisQuant (1/2))) = basisQuant (1/2) ∧
     (|basisQuant (1/2)| : ℝ) ≤ 126 * |(1/2 : ℝ)|) :=
  ⟨by rw [abs_of_nonneg (by norm_num : (0:ℝ) ≤ 1/2)]; norm_num,
   claim_C7 (1/2) (by rw [abs_of_nonneg (by norm_num : (0:ℝ) ≤ 1/2)]; norm_num)⟩

theorem write8_same (st : Store) (o v : ℕ) : write8 st o v o = v % 256 := by
  simp [write8]

theorem write8_ne (st : Store) (o v i : ℕ) (h : i ≠ o) :
    write8 st o v i = st i := by
  simp [write8, h]

theorem write16_outside (st : Store) (o v i : ℕ) (h : i ≠ o ∧ i ≠ o + 1) :
    write16 st o v i = st i := by
  unfold write16
  rw [write8_ne _ _ _ _ h.2, write8_ne _ _ _ _ h.1]

theorem write32_outside (st : Store) (o v i : ℕ)
    (h : i < o ∨ o + 4 ≤ i) :
    write32 st o v i = st i := by
  unfold write32
  rw [write16_outside _ _ _ _ (by omega), write16_outside _ _ _ _ (by omega)]

theorem read32_congr (st st' : Store) (a : ℕ)
    (h : ∀ i, a ≤ i → i < a + 4 → st i = st' i) :
    read32 st a = read32 st' a := by
  simp only [read32, read16, read8]
  rw [h a (by omega) (by omega), h (a+1) (by omega) (by omega),
    h (a+2) (by omega) (by omega), h (a+3) (by omega) (by omega)]

theorem read32_write32_same (st : Store) (o v : ℕ) :
    read32 (write32 st o v) o = v % 2^32 := by
  simp only [read32, read16, read8, write32, write16]
  simp (disch := omega) only [write8_same, write8_ne]
  omega

/-- A byte address `i` outside the write region of the encode-loop
iteration for slot `ix` (and below the basis/bound arrays) is untouched
by `writePrim`. -/
theorem writePrim_outside (N : ℕ) (st : Store) (ix : ℕ) (p : PrimPayload)
    (pid i : ℕ) (h1 : i < 5 + 4*ix ∨ 5 + 4*ix + 4 ≤ i)
    (h2 : i < 5 + 4*N) :
    writePrim N st ix p pid i = st i := by
  simp only [writePrim, write32, write16, primID_off, bounds_vx_x_off,
    bounds_vx_y_off, bounds_vx_z_off, bounds_vx_lower_off,
    bounds_vx_upper_off, bounds_vy_x_off, bounds_vy_y_off, bounds_vy_z_off,
    bounds_vy_lower_off, bounds_vy_upper_off, bounds_vz_x_off,
    bounds_vz_y_off, bounds_vz_z_off, bounds_vz_lower_off,
    bounds_vz_upper_off]
  simp (disch := omega) only [write8_ne]

theorem fillPrims_outside (N : ℕ) (pay : ℕ → PrimPayload) (pids : ℕ → ℕ)
    (st : Store) :
    ∀ k i, i < 5 + 4*N → (∀ j, j < k → i < 5 + 4*j ∨ 5 + 4*j + 4 ≤ i) →
      fillPrims N pay pids st k i = st i := by
  intro k
  induction k with
  | zero => intro i _ _; rfl
  | succ k ih =>
    intro i hi hj
    show writePrim N (fillPrims N pay pids st k) k (pay k) (pids k) i = _
    rw [writePrim_outside _ _ _ _ _ _ (hj k (by omega)) hi]
    exact ih i hi fun j hjk => hj j (by omega)

theorem fillPrims_read_primID (N : ℕ) (pay : ℕ → PrimPayload)
    (pids : ℕ → ℕ) (st : Store) :
    ∀ k j, k ≤ N → j < k →
      read32 (fillPrims N pay pids st k) (5 + 4*j) = pids j % 2^32 := by
  intro k
  induction k with
  | zero => intro j _ h; omega
  | succ k ih =>
    intro j hk hj
    rcases Nat.lt_or_ge j k with h | h
    · show read32 (writePrim N (fillPrims N pay pids st k) k (pay k)
        (pids k)) (5 + 4*j) = _
      rw [read32_congr _ (fillPrims N pay pids st k) _
        (fun i hi1 hi2 => writePrim_outside _ _ _ _ _ _ (by omega)
          (by omega))]
      exact ih j (by omega) h
    · have hjk : j = k := by omega
      subst hjk
      show read32 (writePrim N (fillPrims N pay pids st j) j (pay j)
        (pids j)) (5 + 4*j) = _
      have : writePrim N (fillPrims N pay pids st j) j (pay j) (pids j) =
          write32 (write16 (write16 (write8 (write8 (write8 (write16
            (write16 (write8 (write8 (write8 (write16 (write16 (write8
              (write8 (write8 (fillPrims N pay pids st j)
                (bounds_vx_x_off N + j) (toByte (pay j).vx_x))
                (bounds_vx_y_off N + j) (toByte (pay j).vx_y))
              (bounds_vx_z_off N + j) (toByte (pay j).vx_z))
              (bounds_vx_lower_off N + 2*j) (toWord (pay j).vx_lower))
              (bounds_vx_upper_off N + 2*j) (toWord (pay j).vx_upper))
              (bounds_vy_x_off N + j) (toByte (pay j).vy_x))
              (bounds_vy_y_off N + j) (toByte (pay j).vy_y))
              (bounds_vy_z_off N + j) (toByte (pay j).vy_z))
              (bounds_vy_lower_off N + 2*j) (toWord (pay j).vy_lower))
              (bounds_vy_upper_off N + 2*j) (toWord (pay j).vy_upper))
              (bounds_vz_x_off N + j) (toByte (pay j).vz_x))
              (bounds_vz_y_off N + j) (toByte (pay j).vz_y))
              (bounds_vz_z_off N + j) (toByte (pay j).vz_z))
              (bounds_vz_lower_off N + 2*j) (toWord (pay j).vz_lower))
              (bounds_vz_upper_off N + 2*j) (toWord (pay j).vz_upper))
            (primID_off N + 4*j) (pids j) := rfl
      rw [this]
      have h5 : primID_off N + 4*j = 5 + 4*j := rfl
      rw [h5] at *
      exact read32_write32_same _ _ _

theorem fillStore_count (M b e : ℕ) (prims : ℕ → PrimRef)
    (pay : ℕ → PrimPayload) (ow : ℕ → ℕ) (sw : ℕ) (st : Store)
    (h255 : fillCount M b e ≤ 255) :
    read8 (fillStore M b e prims pay ow sw st) count_off =
      fillCount M b e := by
  unfold fillStore
  simp only [count_off, read8]
  rw [fillPrims_outside _ _ _ _ _ 0 (by omega) (fun j _ => by omega)]
  rw [write32_outside _ _ _ _ (by unfold scale_off; omega)]
  rw [write32_outside _ _ _ _ (by unfold offset_off; omega)]
  rw [write32_outside _ _ _ _ (by unfold offset_off; omega)]
  rw [write32_outside _ _ _ _ (by unfold offset_off; omega)]
  rw [write32_outside _ _ _ _ (by unfold geomID_off; omega)]
  show write8 st count_off (fillCount M b e) 0 = fillCount M b e
  simp only [count_off]
  rw [write8_same]
  omega

theorem fillStore_geomID (M b e : ℕ) (prims : ℕ → PrimRef)
    (pay : ℕ → PrimPayload) (ow : ℕ → ℕ) (sw : ℕ) (st : Store)
    (hg32 : (prims b).geomID < 2^32) :
    read32 (fillStore M b e prims pay ow sw st)
      (geomID_off (fillCount M b e)) = (prims b).geomID := by
  unfold fillStore
  simp only [geomID_off]
  rw [read32_congr _ _ _ (fun i hi1 hi2 =>
    fillPrims_outside _ _ _ _ _ i (by omega) (fun j _ => by omega))]
  rw [read32_congr _ _ _ (fun i hi1 hi2 =>
    write32_outside _ _ _ i (by unfold scale_off; omega))]
  rw [read32_congr _ _ _ (fun i hi1 hi2 =>
    write32_outside _ _ _ i (by unfold offset_off; omega))]
  rw [read32_congr _ _ _ (fun i hi1 hi2 =>
    write32_outside _ _ _ i (by unfold offset_off; omega))]
  rw [read32_congr _ _ _ (fun i hi1 hi2 =>
    write32_outside _ _ _ i (by unfold offset_off; omega))]
  show read32 (write32 (write8 st count_off (fillCount M b e))
    (geomID_off (fillCount M b e)) (prims b).geomID) 1 = _
  simp only [geomID_off]
  rw [read32_write32_same]
  omega

theorem fillStore_primID (M b e : ℕ) (prims : ℕ → PrimRef)
    (pay : ℕ → PrimPayload) (ow : ℕ → ℕ) (sw : ℕ) (st : Store) (j : ℕ)
    (hj : j < fillCount M b e) (hp32 : (prims (b + j)).primID < 2^32) :
    read32 (fillStore M b e prims pay ow sw st)
      (primID_off (fillCount M b e) + 4*j) = (prims (b + j)).primID := by
  unfold fillStore
  simp only [primID_off]
  rw [show (5 : ℕ) + 4*j = 5 + 4*j from rfl]
  rw [fillPrims_read_primID _ _ _ _ _ j (le_refl _) hj]
  omega

/-- C8: after fill on a slice `[b, e)` of same-geometry primitive
references, the stored count is min(M, e-b), the stored geometry id is
the shared geometry id of the slice, and the j-th stored primitive id is
the id of the j-th primitive of the slice in original order; reading the
block back at the offsets computed from the same count recovers exactly
these values. -/
theorem claim_C8 (M b e : ℕ) (prims : ℕ → PrimRef)
    (pay : ℕ → PrimPayload) (ow : ℕ → ℕ) (sw : ℕ) (st : Store) (g : ℕ)
    (hM : 1 ≤ M) (hM255 : M ≤ 255) (hbe : b < e)
    (hg : ∀ i, b ≤ i → i < e → (prims i).geomID = g) (hg32 : g < 2^32)
    (hp32 : ∀ i, b ≤ i → i < e → (prims i).primID < 2^32) :
    fillCount M b e = min M (e - b) ∧
    read8 (fillStore M b e prims pay ow sw st) count_off = min M (e - b) ∧
    read32 (fillStore M b e prims pay ow sw st)
      (geomID_off (fillCount M b e)) = g ∧
    ∀ j, j < fillCount M b e →
      read32 (fillStore M b e prims pay ow sw st)
        (primID_off (fillCount M b e) + 4*j) = (prims (b + j)).primID := by
  have hN : fillCount M b e = min M (e - b) := by unfold fillCount; omega
  have h255 : fillCount M b e ≤ 255 := by unfold fillCount; omega
  refine ⟨hN, ?_, ?_, ?_⟩
  · rw [fillStore_count M b e prims pay ow sw st h255, hN]
  · rw [fillStore_geomID M b e prims pay ow sw st
      (by rw [hg b (le_refl _) hbe]; exact hg32)]
    exact hg b (le_refl _) hbe
  · intro j hj
    have hbj : b + j < e := by
      unfold fillCount at hj
      omega
    exact fillStore_primID M b e prims pay ow sw st j hj
      (hp32 (b + j) (by omega) hbj)

/-- Witness for C8: a two-primitive slice with geometry id 7 and
primitive ids 100 and 101. -/
theorem claim_C8_witness :
    (1 ≤ 4 ∧ 4 ≤ 255 ∧ 0 < 2 ∧
     (∀ i, 0 ≤ i → i < 2 → (wPrims i).geomID = 7) ∧ 7 < 2^32 ∧
     (∀ i, 0 ≤ i → i < 2 → (wPrims i).primID < 2^32)) ∧
    (fillCount 4 0 2 = min 4 (2 - 0) ∧
     read8 (fillStore 4 0 2 wPrims wPay (fun _ => 0) 0 wStore) count_off =
       min 4 (2 - 0) ∧
     read32 (fillStore 4 0 2 wPrims wPay (fun _ => 0) 0 wStore)
       (geomID_off (fillCount 4 0 2)) = 7 ∧
     ∀ j, j < fillCount 4 0 2 →
       read32 (fillStore 4 0 2 wPrims wPay (fun _ => 0) 0 wStore)
         (primID_off (fillCount 4 0 2) + 4*j) = (wPrims (0 + j)).primID) :=
  ⟨⟨by norm_num, by norm_num, by norm_num,
    fun i _ h2 => rfl, by norm_num, fun i _ h2 => by simp [wPrims]; omega⟩,
   claim_C8 4 0 2 wPrims wPay (fun _ => 0) 0 wStore 7 (by norm_num)
     (by norm_num) (by norm_num) (fun i _ h2 => rfl) (by norm_num)
     (fun i _ h2 => by simp [wPrims]; omega)⟩

theorem smul_def (c : ℝ) (v : Vec3) : c • v = ⟨c * v.x, c * v.y, c * v.z⟩ :=
  rfl

theorem sub_def (a b : Vec3) : a - b = ⟨a.x - b.x, a.y - b.y, a.z - b.z⟩ :=
  rfl

theorem sqrLength_nonneg (v : Vec3) : 0 ≤ v.sqrLength := by
  unfold Vec3.sqrLength Vec3.dot
  nlinarith [sq_nonneg v.x, sq_nonneg v.y, sq_nonneg v.z]

theorem sqrLength_smul (c : ℝ) (v : Vec3) :
    (c • v).sqrLength = c^2 * v.sqrLength := by
  simp only [smul_def, Vec3.sqrLength, Vec3.dot]
  ring

theorem dot_smul_left (c : ℝ) (a b : Vec3) :
    Vec3.dot (c • a) b = c * Vec3.dot a b := by
  simp only [smul_def, Vec3.dot]
  ring

theorem dot_cross_left (a b : Vec3) : Vec3.dot (Vec3.cross a b) a = 0 := by
  simp only [Vec3.cross, Vec3.dot]
  ring

theorem dot_cross_right (a b : Vec3) : Vec3.dot (Vec3.cross a b) b = 0 := by
  simp only [Vec3.cross, Vec3.dot]
  ring

theorem sqrLength_cross (a b : Vec3) :
    (Vec3.cross a b).sqrLength =
      a.sqrLength * b.sqrLength - (Vec3.dot a b)^2 := by
  simp only [Vec3.cross, Vec3.sqrLength, Vec3.dot]
  ring

theorem normalize_sqrLength {v : Vec3} (h : 0 < v.sqrLength) :
    (Vec3.normalize v).sqrLength = 1 := by
  unfold Vec3.normalize Vec3.length
  rw [sqrLength_smul, div_pow, one_pow, Real.sq_sqrt h.le]
  field_simp

theorem normalize_of_unit {v : Vec3} (h : v.sqrLength = 1) :
    Vec3.normalize v = v := by
  unfold Vec3.normalize Vec3.length
  rw [h, Real.sqrt_one]
  ext <;> simp [smul_def]

theorem casStep_eq (sc : Scene) (off : Vec3) (scl : ℝ) (s : CASState)
    (pr : PrimRef) :
    casStep sc off scl s pr =
      if pr.ID64 < s.best ∧ validChord sc off scl pr then
        ⟨axeszOf sc off scl pr, axesyOf sc off scl pr, pr.ID64⟩
      else s := by
  unfold casStep
  by_cases h1 : s.best ≤ pr.ID64
  · rw [if_pos h1, if_neg (fun hc => absurd hc.1 (by omega))]
  · rw [if_neg h1]
    by_cases h2 : validChord sc off scl pr
    · rw [if_pos (show epsDegen < (chordOf sc off scl pr).sqrLength from h2),
        if_pos ⟨by omega, h2⟩]
    · rw [if_neg
        (show ¬ epsDegen < (chordOf sc off scl pr).sqrLength from h2),
        if_neg (fun hc => absurd hc.2 h2)]

theorem casStep_skip {sc : Scene} {off : Vec3} {scl : ℝ} {s : CASState}
    {pr : PrimRef}
    (h : validChord sc off scl pr → s.best ≤ pr.ID64) :
    casStep sc off scl s pr = s := by
  rw [casStep_eq, if_neg]
  intro hc
  exact absurd (h hc.2) (by omega)

theorem casFold_skip (sc : Scene) (off : Vec3) (scl : ℝ) :
    ∀ (l : List PrimRef) (s : CASState),
      (∀ q ∈ l, validChord sc off scl q → s.best ≤ q.ID64) →
      l.foldl (casStep sc off scl) s = s := by
  intro l
  induction l with
  | nil => intro s _; rfl
  | cons p t ih =>
    intro s h
    rw [List.foldl_cons, casStep_skip (h p (List.mem_cons_self p t))]
    exact ih s fun q hq => h q (List.mem_cons_of_mem p hq)

theorem ID64_inj {x y : PrimRef} (hx1 : x.geomID < 2^32)
    (hx2 : x.primID < 2^32) (hy1 : y.geomID < 2^32) (hy2 : y.primID < 2^32)
    (h : x.ID64 = y.ID64) : x = y := by
  unfold PrimRef.ID64 at h
  ext <;> omega

theorem casFold_select (sc : Scene) (off : Vec3) (scl : ℝ) (pr : PrimRef)
    (hv : validChord sc off scl pr) :
    ∀ (l : List PrimRef) (s : CASState), pr ∈ l →
      (∀ q ∈ l, q.geomID < 2^32 ∧ q.primID < 2^32) →
      (∀ q ∈ l, validChord sc off scl q → pr.ID64 ≤ q.ID64) →
      pr.ID64 < s.best →
      l.foldl (casStep sc off scl) s =
        ⟨axeszOf sc off scl pr, axesyOf sc off scl pr, pr.ID64⟩ := by
  intro l
  induction l with
  | nil => intro s hmem _ _ _; exact absurd hmem (List.not_mem_nil pr)
  | cons p t ih =>
    intro s hmem hsmall hmin hlt
    rw [List.foldl_cons]
    by_cases hcond : p.ID64 < s.best ∧ validChord sc off scl p
    · rw [casStep_eq, if_pos hcond]
      by_cases hid : p.ID64 = pr.ID64
      · have hp : p = pr :=
          ID64_inj (hsmall p (List.mem_cons_self p t)).1
            (hsmall p (List.mem_cons_self p t)).2 (hsmall pr hmem).1
            (hsmall pr hmem).2 hid
        subst hp
        exact casFold_skip sc off scl t _
          fun q hq hvq => hmin q (List.mem_cons_of_mem p hq) hvq
      · have hlt2 : pr.ID64 < p.ID64 :=
          lt_of_le_of_ne (hmin p (List.mem_cons_self p t) hcond.2)
            (Ne.symm hid)
        have hmem2 : pr ∈ t := by
          rcases List.mem_cons.mp hmem with h | h
          · exact absurd (congrArg PrimRef.ID64 h).symm hid
          · exact h
        exact ih _ hmem2
          (fun q hq => hsmall q (List.mem_cons_of_mem p hq))
          (fun q hq => hmin q (List.mem_cons_of_mem p hq)) hlt2
    · rw [casStep_eq, if_neg hcond]
      have hmem2 : pr ∈ t := by
        rcases List.mem_cons.mp hmem with h | h
        · subst h
          exact absurd ⟨hlt, hv⟩ hcond
        · exact h
      exact ih s hmem2
        (fun q hq => hsmall q (List.mem_cons_of_mem p hq))
        (fun q hq => hmin q (List.mem_cons_of_mem p hq)) hlt

theorem normalize_e1 : Vec3.normalize ⟨1, 0, 0⟩ = ⟨1, 0, 0⟩ :=
  normalize_of_unit (by norm_num [Vec3.sqrLength, Vec3.dot])

theorem normalize_e2 : Vec3.normalize ⟨0, 1, 0⟩ = ⟨0, 1, 0⟩ :=
  normalize_of_unit (by norm_num [Vec3.sqrLength, Vec3.dot])

theorem cross_e2_e3 : Vec3.cross ⟨0, 1, 0⟩ ⟨0, 0, 1⟩ = ⟨1, 0, 0⟩ := by
  norm_num [Vec3.cross]

theorem frame_e3 : frame ⟨0, 0, 1⟩ = ⟨⟨1, 0, 0⟩, ⟨0, 1, 0⟩, ⟨0, 0, 1⟩⟩ := by
  have h1 : Vec3.cross ⟨1, 0, 0⟩ ⟨0, 0, 1⟩ = ⟨0, -1, 0⟩ := by
    norm_num [Vec3.cross]
  have h3 : Vec3.cross ⟨0, 0, 1⟩ ⟨1, 0, 0⟩ = ⟨0, 1, 0⟩ := by
    norm_num [Vec3.cross]
  simp only [frame]
  rw [h1, cross_e2_e3, if_neg (by norm_num [Vec3.dot]), normalize_e1, h3,
    normalize_e2]

theorem orthoRH_id : isOrthoRH ⟨⟨1, 0, 0⟩, ⟨0, 1, 0⟩, ⟨0, 0, 1⟩⟩ := by
  norm_num [isOrthoRH, Vec3.dot, Vec3.sqrLength, Vec3.cross]

theorem computeAligned_of_init (sc : Scene) (off : Vec3) (scl : ℝ)
    (l : List PrimRef) (hloop : casLoop sc off scl l = casInit) :
    computeAlignedSpace sc l off scl =
      ⟨⟨1, 0, 0⟩, ⟨0, 1, 0⟩, ⟨0, 0, 1⟩⟩ := by
  simp only [computeAlignedSpace]
  rw [hloop]
  show (if epsDegen < Vec3.sqrLength ⟨0, 1, 0⟩ then
      (⟨Vec3.normalize (Vec3.cross (Vec3.normalize ⟨0, 1, 0⟩) ⟨0, 0, 1⟩),
        Vec3.normalize ⟨0, 1, 0⟩, ⟨0, 0, 1⟩⟩ : LinSpace)
    else frame ⟨0, 0, 1⟩) = _
  rw [if_pos (by norm_num [Vec3.sqrLength, Vec3.dot, epsDegen]),
    normalize_e2, cross_e2_e3, normalize_e1]

/-- C5: when every primitive of the range has a degenerate
(squared length at most 1e-18) adjusted chord, computeAlignedSpace
returns the canonical fallback frame built from the default axis (0,0,1)
by the standard single-vector construction, here the identity frame; no
basis is derived from a near-zero vector. -/
theorem claim_C5 (sc : Scene) (off : Vec3) (scl : ℝ) (l : List PrimRef)
    (h : ∀ pr ∈ l, ¬ validChord sc off scl pr) :
    computeAlignedSpace sc l off scl = ⟨⟨1, 0, 0⟩, ⟨0, 1, 0⟩, ⟨0, 0, 1⟩⟩ ∧
    computeAlignedSpace sc l off scl = frame ⟨0, 0, 1⟩ ∧
    isOrthoRH (computeAlignedSpace sc l off scl) := by
  have hloop : casLoop sc off scl l = casInit :=
    casFold_skip sc off scl l casInit fun q hq hvq => absurd hvq (h q hq)
  have hid := computeAligned_of_init sc off scl l hloop
  refine ⟨hid, ?_, ?_⟩
  · rw [hid, frame_e3]
  · rw [hid]
    exact orthoRH_id

/-- Witness for C5: a one-primitive range whose curve collapses to a
point, so its chord is degenerate. -/
theorem claim_C5_witness :
    (∀ pr ∈ [wPrim], ¬ validChord wSceneDegen ⟨0, 0, 0⟩ 1 pr) ∧
    (computeAlignedSpace wSceneDegen [wPrim] ⟨0, 0, 0⟩ 1 =
      ⟨⟨1, 0, 0⟩, ⟨0, 1, 0⟩, ⟨0, 0, 1⟩⟩ ∧
     computeAlignedSpace wSceneDegen [wPrim] ⟨0, 0, 0⟩ 1 = frame ⟨0, 0, 1⟩ ∧
     isOrthoRH (computeAlignedSpace wSceneDegen [wPrim] ⟨0, 0, 0⟩ 1)) := by
  have hdeg : ∀ pr ∈ [wPrim], ¬ validChord wSceneDegen ⟨0, 0, 0⟩ 1 pr := by
    intro pr _
    unfold validChord
    norm_num [chordOf, ctrlPt, wSceneDegen, epsDegen, Vec3.sqrLength,
      Vec3.dot, smul_def, sub_def]
  exact ⟨hdeg, claim_C5 wSceneDegen ⟨0, 0, 0⟩ 1 [wPrim] hdeg⟩

/-- C10: a primitive whose composite id equals the sentinel 2^64 - 1 is
never selected by the loop; a range containing only such primitives
leaves the loop state untouched and computeAlignedSpace behaves exactly
as on an empty range (the degenerate-case frame). -/
theorem claim_C10 (sc : Scene) (off : Vec3) (scl : ℝ) (l : List PrimRef)
    (h : ∀ q ∈ l, q.ID64 = sentinelID) :
    casLoop sc off scl l = casInit ∧
    computeAlignedSpace sc l off scl =
      computeAlignedSpace sc [] off scl := by
  have h1 : casLoop sc off scl l = casInit :=
    casFold_skip sc off scl l casInit
      fun q hq _ => le_of_eq (h q hq).symm
  refine ⟨h1, ?_⟩
  unfold computeAlignedSpace
  rw [h1]
  rfl

/-- Witness for C10: a one-primitive range whose composite id is the
sentinel, with a perfectly valid (non-degenerate) chord. -/
theorem claim_C10_witness :
    (∀ q ∈ [wPrimMax], q.ID64 = sentinelID) ∧
    (casLoop wScene ⟨0, 0, 0⟩ 1 [wPrimMax] = casInit ∧
     computeAlignedSpace wScene [wPrimMax] ⟨0, 0, 0⟩ 1 =
       computeAlignedSpace wScene [] ⟨0, 0, 0⟩ 1) := by
  have hs : ∀ q ∈ [wPrimMax], q.ID64 = sentinelID := by
    intro q hq
    simp only [List.mem_singleton] at hq
    subst hq
    norm_num [PrimRef.ID64, wPrimMax, sentinelID]
  exact ⟨hs, claim_C10 wScene ⟨0, 0, 0⟩ 1 [wPrimMax] hs⟩

theorem ID64_le_sentinel {q : PrimRef} (h1 : q.geomID < 2^32)
    (h2 : q.primID < 2^32) : q.ID64 ≤ sentinelID := by
  unfold PrimRef.ID64 sentinelID
  omega

theorem exists_min_valid (sc : Scene) (off : Vec3) (scl : ℝ) :
    ∀ l : List PrimRef,
      (∃ q ∈ l, validChord sc off scl q ∧ q.ID64 < sentinelID) →
      ∃ pr ∈ l, validChord sc off scl pr ∧ pr.ID64 < sentinelID ∧
        ∀ q ∈ l, validChord sc off scl q → q.ID64 < sentinelID →
          pr.ID64 ≤ q.ID64 := by
  intro l
  induction l with
  | nil =>
    intro h
    obtain ⟨q, hq, _⟩ := h
    exact absurd hq (List.not_mem_nil q)
  | cons p t ih =>
    intro h
    by_cases hP : ∃ q ∈ t, validChord sc off scl q ∧ q.ID64 < sentinelID
    · obtain ⟨pr, hmem, hv, hlt, hmin⟩ := ih hP
      by_cases hp :
          (validChord sc off scl p ∧ p.ID64 < sentinelID) ∧
            p.ID64 < pr.ID64
      · refine ⟨p, List.mem_cons_self p t, hp.1.1, hp.1.2, ?_⟩
        intro q hq hvq hql
        rcases List.mem_cons.mp hq with h1 | h1
        · subst h1
          exact le_refl _
        · exact le_trans (le_of_lt hp.2) (hmin q h1 hvq hql)
      · refine ⟨pr, List.mem_cons_of_mem p hmem, hv, hlt, ?_⟩
        intro q hq hvq hql
        rcases List.mem_cons.mp hq with h1 | h1
        · subst h1
          by_cases hlt2 : q.ID64 < pr.ID64
          · exact absurd ⟨⟨hvq, hql⟩, hlt2⟩ hp
          · omega
        · exact hmin q h1 hvq hql
    · obtain ⟨q0, hq0, hv0, hl0⟩ := h
      have hq0p : q0 = p := by
        rcases List.mem_cons.mp hq0 with h1 | h1
        · exact h1
        · exact absurd ⟨q0, h1, hv0, hl0⟩ hP
      subst hq0p
      refine ⟨q0, List.mem_cons_self q0 t, hv0, hl0, ?_⟩
      intro q hq hvq hql
      rcases List.mem_cons.mp hq with h1 | h1
      · subst h1
        exact le_refl _
      · exact absurd ⟨q, h1, hvq, hql⟩ hP

/-- C6: the aligned-space result depends only on the multiset of
primitive tuples in the range: any permutation of the range yields the
same selected primitive and exactly the same basis. -/
theorem claim_C6 (sc : Scene) (off : Vec3) (scl : ℝ)
    (l1 l2 : List PrimRef) (hperm : l1.Perm l2)
    (hsmall : ∀ q ∈ l1, q.geomID < 2^32 ∧ q.primID < 2^32) :
    computeAlignedSpace sc l1 off scl = computeAlignedSpace sc l2 off scl := by
  have hmem2 : ∀ q : PrimRef, q ∈ l1 ↔ q ∈ l2 := fun q => hperm.mem_iff
  have hloop : casLoop sc off scl l1 = casLoop sc off scl l2 := by
    by_cases hP : ∃ q ∈ l1, validChord sc off scl q ∧ q.ID64 < sentinelID
    · obtain ⟨pr, hmem, hv, hlt, hminr⟩ := exists_min_valid sc off scl l1 hP
      have hmin : ∀ q ∈ l1, validChord sc off scl q → pr.ID64 ≤ q.ID64 := by
        intro q hq hvq
        by_cases hql : q.ID64 < sentinelID
        · exact hminr q hq hvq hql
        · have := ID64_le_sentinel (hsmall q hq).1 (hsmall q hq).2
          omega
      unfold casLoop
      rw [casFold_select sc off scl pr hv l1 casInit hmem hsmall hmin hlt,
        casFold_select sc off scl pr hv l2 casInit ((hmem2 pr).mp hmem)
          (fun q hq => hsmall q ((hmem2 q).mpr hq))
          (fun q hq hvq => hmin q ((hmem2 q).mpr hq) hvq) hlt]
    · push_neg at hP
      unfold casLoop
      rw [casFold_skip sc off scl l1 casInit
          (fun q hq hvq => hP q hq hvq),
        casFold_skip sc off scl l2 casInit
          (fun q hq hvq => hP q ((hmem2 q).mpr hq) hvq)]
  unfold computeAlignedSpace
  rw [hloop]

/-- Witness for C6: swapping a two-primitive range leaves the result
unchanged. -/
theorem claim_C6_witness :
    ([wPrim, wPrimB].Perm [wPrimB, wPrim]) ∧
    (∀ q ∈ [wPrim, wPrimB], q.geomID < 2^32 ∧ q.primID < 2^32) ∧
    computeAlignedSpace wScene [wPrim, wPrimB] ⟨0, 0, 0⟩ 1 =
      computeAlignedSpace wScene [wPrimB, wPrim] ⟨0, 0, 0⟩ 1 := by
  have hperm : [wPrim, wPrimB].Perm [wPrimB, wPrim] :=
    List.Perm.swap wPrimB wPrim []
  have hsmall : ∀ q ∈ [wPrim, wPrimB],
      q.geomID < 2^32 ∧ q.primID < 2^32 := by
    intro q hq
    rcases List.mem_cons.mp hq with h | h
    · subst h
      norm_num [wPrim]
    · rcases List.mem_cons.mp h with h1 | h1
      · subst h1
        norm_num [wPrimB]
      · exact absurd h1 (List.not_mem_nil q)
  exact ⟨hperm, hsmall,
    claim_C6 wScene ⟨0, 0, 0⟩ 1 [wPrim, wPrimB] [wPrimB, wPrim] hperm hsmall⟩

theorem normalize_def (a : Vec3) :
    Vec3.normalize a = (1 / a.length) • a := rfl

theorem epsDegen_pos : (0 : ℝ) < epsDegen := by norm_num [epsDegen]

/-- The frame the claim predicts is a right-handed orthonormal frame
whenever the chord and the secondary axis are non-degenerate. -/
theorem claimedFrame_ortho (sc : Scene) (off : Vec3) (scl : ℝ)
    (pr : PrimRef) (hv : validChord sc off scl pr)
    (hsec : epsDegen < Vec3.sqrLength (axesyOf sc off scl pr)) :
    isOrthoRH (claimedFrame sc off scl pr) := by
  have hchord : 0 < (chordOf sc off scl pr).sqrLength :=
    lt_trans epsDegen_pos hv
  have hay : 0 < (axesyOf sc off scl pr).sqrLength :=
    lt_trans epsDegen_pos hsec
  have ht : (axeszOf sc off scl pr).sqrLength = 1 :=
    normalize_sqrLength hchord
  have hy : (Vec3.normalize (axesyOf sc off scl pr)).sqrLength = 1 :=
    normalize_sqrLength hay
  have hyt : Vec3.dot (Vec3.normalize (axesyOf sc off scl pr))
      (axeszOf sc off scl pr) = 0 := by
    rw [normalize_def, dot_smul_left]
    rw [show axesyOf sc off scl pr =
      Vec3.cross (axeszOf sc off scl pr) (derivOf sc off scl pr) from rfl]
    rw [dot_cross_left]
    ring
  have hcyt : (Vec3.cross (Vec3.normalize (axesyOf sc off scl pr))
      (axeszOf sc off scl pr)).sqrLength = 1 := by
    rw [sqrLength_cross, hy, ht, hyt]
    norm_num
  have hx : Vec3.normalize (Vec3.cross
      (Vec3.normalize (axesyOf sc off scl pr)) (axeszOf sc off scl pr)) =
      Vec3.cross (Vec3.normalize (axesyOf sc off scl pr))
        (axeszOf sc off scl pr) :=
    normalize_of_unit hcyt
  unfold claimedFrame isOrthoRH
  refine ⟨?_, hyt, ?_, ?_, hy, ht, ?_⟩
  · rw [hx]
    exact dot_cross_left _ _
  · rw [hx]
    exact dot_cross_right _ _
  · rw [hx]
    exact hcyt
  · rw [hx]

/-- C4 (amended): for a range containing a primitive with valid chord
whose composite id is minimal among valid primitives and strictly below
the sentinel 2^64 - 1, and whose secondary axis is non-degenerate,
computeAlignedSpace returns exactly the claimed basis (normalize(cross
(secondary, tangent)), normalize(secondary), tangent), a right-handed
orthonormal frame. -/
theorem claim_C4 (sc : Scene) (off : Vec3) (scl : ℝ) (l : List PrimRef)
    (pr : PrimRef) (hmem : pr ∈ l)
    (hsmall : ∀ q ∈ l, q.geomID < 2^32 ∧ q.primID < 2^32)
    (hv : validChord sc off scl pr)
    (hsent : pr.ID64 < sentinelID)
    (hmin : ∀ q ∈ l, validChord sc off scl q → pr.ID64 ≤ q.ID64)
    (hsec : epsDegen < Vec3.sqrLength (axesyOf sc off scl pr)) :
    computeAlignedSpace sc l off scl = claimedFrame sc off scl pr ∧
    isOrthoRH (computeAlignedSpace sc l off scl) := by
  have hloop : casLoop sc off scl l =
      ⟨axeszOf sc off scl pr, axesyOf sc off scl pr, pr.ID64⟩ :=
    casFold_select sc off scl pr hv l casInit hmem hsmall hmin hsent
  have hres : computeAlignedSpace sc l off scl = claimedFrame sc off scl pr := by
    simp only [computeAlignedSpace]
    rw [hloop]
    show (if epsDegen < Vec3.sqrLength (axesyOf sc off scl pr) then _
      else frame (axeszOf sc off scl pr)) = _
    rw [if_pos hsec]
    rfl
  exact ⟨hres, hres ▸ claimedFrame_ortho sc off scl pr hv hsec⟩

theorem wScene_chord (pr : PrimRef) :
    chordOf wScene ⟨0, 0, 0⟩ 1 pr = ⟨1, 0, 0⟩ := by
  norm_num [chordOf, ctrlPt, wScene, smul_def, sub_def]

theorem wScene_deriv (pr : PrimRef) :
    derivOf wScene ⟨0, 0, 0⟩ 1 pr = ⟨0, 3, 0⟩ := by
  norm_num [derivOf, ctrlPt, wScene, smul_def, sub_def]

theorem wScene_axesy (pr : PrimRef) :
    axesyOf wScene ⟨0, 0, 0⟩ 1 pr = ⟨0, 0, 3⟩ := by
  unfold axesyOf axeszOf
  rw [wScene_chord, wScene_deriv, normalize_e1]
  norm_num [Vec3.cross]

theorem wScene_valid (pr : PrimRef) : validChord wScene ⟨0, 0, 0⟩ 1 pr := by
  unfold validChord
  rw [wScene_chord]
  norm_num [Vec3.sqrLength, Vec3.dot, epsDegen]

theorem wScene_sec (pr : PrimRef) :
    epsDegen < Vec3.sqrLength (axesyOf wScene ⟨0, 0, 0⟩ 1 pr) := by
  rw [wScene_axesy]
  norm_num [Vec3.sqrLength, Vec3.dot, epsDegen]

/-- Counterexample to C4 as stated: a range whose only primitive has a
perfectly valid chord and secondary axis but composite id 2^64 - 1; the
loop never selects it (the id fails the strict comparison against the
sentinel initializer) and the default frame is returned instead of the
claimed basis. -/
theorem claim_C4_cex :
    validChord wScene ⟨0, 0, 0⟩ 1 wPrimMax ∧
    epsDegen < Vec3.sqrLength (axesyOf wScene ⟨0, 0, 0⟩ 1 wPrimMax) ∧
    (∀ q ∈ [wPrimMax], validChord wScene ⟨0, 0, 0⟩ 1 q →
      wPrimMax.ID64 ≤ q.ID64) ∧
    computeAlignedSpace wScene [wPrimMax] ⟨0, 0, 0⟩ 1 ≠
      claimedFrame wScene ⟨0, 0, 0⟩ 1 wPrimMax := by
  have hsent : wPrimMax.ID64 = sentinelID := by
    norm_num [PrimRef.ID64, wPrimMax, sentinelID]
  have hloop : casLoop wScene ⟨0, 0, 0⟩ 1 [wPrimMax] = casInit :=
    casFold_skip wScene ⟨0, 0, 0⟩ 1 [wPrimMax] casInit
      fun q hq _ => by
        rcases List.mem_cons.mp hq with h | h
        · subst h
          exact le_of_eq hsent.symm
        · exact absurd h (List.not_mem_nil q)
  have hres := computeAligned_of_init wScene ⟨0, 0, 0⟩ 1 [wPrimMax] hloop
  have hvz : (claimedFrame wScene ⟨0, 0, 0⟩ 1 wPrimMax).vz = ⟨1, 0, 0⟩ := by
    show axeszOf wScene ⟨0, 0, 0⟩ 1 wPrimMax = _
    unfold axeszOf
    rw [wScene_chord, normalize_e1]
  refine ⟨wScene_valid wPrimMax, wScene_sec wPrimMax,
    fun q hq _ => ?_, ?_⟩
  · rcases List.mem_cons.mp hq with h | h
    · subst h
      exact le_refl _
    · exact absurd h (List.not_mem_nil q)
  · intro heq
    have h1 := congrArg (fun L => L.vz.x) heq
    rw [hres] at h1
    simp only [hvz] at h1
    norm_num at h1

/-- Witness for C4 (amended) at a one-primitive range with composite
id 0. -/
theorem claim_C4_witness :
    (wPrim ∈ [wPrim] ∧ validChord wScene ⟨0, 0, 0⟩ 1 wPrim ∧
     wPrim.ID64 < sentinelID) ∧
    (computeAlignedSpace wScene [wPrim] ⟨0, 0, 0⟩ 1 =
       claimedFrame wScene ⟨0, 0, 0⟩ 1 wPrim ∧
     isOrthoRH (computeAlignedSpace wScene [wPrim] ⟨0, 0, 0⟩ 1)) := by
  have hmem : wPrim ∈ [wPrim] := List.mem_cons_self wPrim []
  have hsmall : ∀ q ∈ [wPrim], q.geomID < 2^32 ∧ q.primID < 2^32 := by
    intro q hq
    rcases List.mem_cons.mp hq with h | h
    · subst h
      norm_num [wPrim]
    · exact absurd h (List.not_mem_nil q)
  have hsent : wPrim.ID64 < sentinelID := by
    norm_num [PrimRef.ID64, wPrim, sentinelID]
  have hmin : ∀ q ∈ [wPrim], validChord wScene ⟨0, 0, 0⟩ 1 q →
      wPrim.ID64 ≤ q.ID64 := by
    intro q hq _
    rcases List.mem_cons.mp hq with h | h
    · subst h
      exact le_refl _
    · exact absurd h (List.not_mem_nil q)
  exact ⟨⟨hmem, wScene_valid wPrim, hsent⟩,
    claim_C4 wScene ⟨0, 0, 0⟩ 1 [wPrim] wPrim hmem hsmall
      (wScene_valid wPrim) hsent hmin (wScene_sec wPrim)⟩

theorem sqrt3_pos : (0 : ℝ) < Real.sqrt 3 :=
  Real.sqrt_pos.mpr (by norm_num)

theorem lscale_pos {B : Box} (hsx : 0 < B.size.x) (hsy : 0 < B.size.y)
    (hsz : 0 < B.size.z) : 0 < lscaleOf B := by
  unfold lscaleOf
  exact lt_min (div_pos (by norm_num) (mul_pos hsx sqrt3_pos))
    (lt_min (div_pos (by norm_num) (mul_pos hsy sqrt3_pos))
      (div_pos (by norm_num) (mul_pos hsz sqrt3_pos)))

theorem lscale_mul_le {B : Box} {s : ℝ} (hs : 0 < s)
    (hle : lscaleOf B ≤ 256 / (s * Real.sqrt 3)) :
    lscaleOf B * s ≤ 256 / Real.sqrt 3 := by
  have h := mul_le_mul_of_nonneg_right hle (le_of_lt hs)
  calc lscaleOf B * s ≤ 256 / (s * Real.sqrt 3) * s := h
  _ = 256 / Real.sqrt 3 := by
    field_simp
    ring

theorem invsqrt3_sq : (256 / Real.sqrt 3)^2 = 65536 / 3 := by
  rw [div_pow, Real.sq_sqrt (by norm_num : (0:ℝ) ≤ 3)]
  norm_num

/-- Componentwise truncation of 126 times a unit vector has squared
length at most 126^2. -/
theorem vtrunc_sqrLength_le (w : Vec3) (hw : w.sqrLength = 1) :
    (vtrunc ((126 : ℝ) • w)).sqrLength ≤ 15876 := by
  have hx := rtrunc_abs_le (126 * w.x)
  have hy := rtrunc_abs_le (126 * w.y)
  have hz := rtrunc_abs_le (126 * w.z)
  have hx2 : ((rtrunc (126 * w.x) : ℝ))^2 ≤ (126 * w.x)^2 := by
    rw [← sq_abs ((rtrunc (126 * w.x) : ℝ)), ← sq_abs (126 * w.x)]
    exact pow_le_pow_left₀ (abs_nonneg _) hx 2
  have hy2 : ((rtrunc (126 * w.y) : ℝ))^2 ≤ (126 * w.y)^2 := by
    rw [← sq_abs ((rtrunc (126 * w.y) : ℝ)), ← sq_abs (126 * w.y)]
    exact pow_le_pow_left₀ (abs_nonneg _) hy 2
  have hz2 : ((rtrunc (126 * w.z) : ℝ))^2 ≤ (126 * w.z)^2 := by
    rw [← sq_abs ((rtrunc (126 * w.z) : ℝ)), ← sq_abs (126 * w.z)]
    exact pow_le_pow_left₀ (abs_nonneg _) hz 2
  have hw' : w.x * w.x + w.y * w.y + w.z * w.z = 1 := hw
  show (rtrunc (126 * w.x) : ℝ) * (rtrunc (126 * w.x) : ℝ) +
      (rtrunc (126 * w.y) : ℝ) * (rtrunc (126 * w.y) : ℝ) +
      (rtrunc (126 * w.z) : ℝ) * (rtrunc (126 * w.z) : ℝ) ≤ 15876
  nlinarith [hx2, hy2, hz2, hw']

theorem sq_le_of_between {v K c : ℝ} (h0 : 0 ≤ v) (h1 : v ≤ K)
    (h2 : K^2 = c) : v^2 ≤ c := by nlinarith

theorem sum_sq_le {a b c d : ℝ} (h1 : a^2 ≤ d) (h2 : b^2 ≤ d)
    (h3 : c^2 ≤ d) : a * a + b * b + c * c ≤ 3 * d := by nlinarith

theorem sum_sq_nonneg (a b c : ℝ) : 0 ≤ a * a + b * b + c * c := by
  nlinarith [mul_self_nonneg a, mul_self_nonneg b, mul_self_nonneg c]

theorem cs_ineq (ax ay az vx vy vz : ℝ) :
    (ax * vx + ay * vy + az * vz)^2 ≤
      (ax * ax + ay * ay + az * az) * (vx * vx + vy * vy + vz * vz) := by
  nlinarith [sq_nonneg (ay * vz - az * vy), sq_nonneg (az * vx - ax * vz),
    sq_nonneg (ax * vy - ay * vx)]

theorem sq_le_bound {c A V : ℝ} (hcs : c^2 ≤ A * V) (hA : A ≤ 15876)
    (hV : V ≤ 65536) (hA0 : 0 ≤ A) (hV0 : 0 ≤ V) : c^2 ≤ 32256^2 := by
  nlinarith

theorem abs_bound_of_sq {c : ℝ} (h : c^2 ≤ 32256^2) :
    -32256 ≤ c ∧ c ≤ 32256 := by
  constructor
  · nlinarith [sq_nonneg (c + 32256)]
  · nlinarith [sq_nonneg (c - 32256)]

/-- The absolute coordinate of any point of the block bound along a
truncated-basis axis is at most 126 * 256 = 32256. -/
theorem coord_bound (B : Box) (w p : Vec3)
    (hsx : 0 < B.size.x) (hsy : 0 < B.size.y) (hsz : 0 < B.size.z)
    (hw : w.sqrLength = 1) (hp : B.mem p) :
    -32256 ≤ coordAlong (vtrunc ((126 : ℝ) • w)) (loffsetOf B)
      (lscaleOf B) p ∧
    coordAlong (vtrunc ((126 : ℝ) • w)) (loffsetOf B) (lscaleOf B) p
      ≤ 32256 := by
  obtain ⟨hp1, hp2, hp3, hp4, hp5, hp6⟩ := hp
  have hs1 : B.size.x = B.upper.x - B.lower.x := rfl
  have hs2 : B.size.y = B.upper.y - B.lower.y := rfl
  have hs3 : B.size.z = B.upper.z - B.lower.z := rfl
  have hpos := lscale_pos hsx hsy hsz
  have hbx := lscale_mul_le hsx (min_le_left _ _)
  have hby := lscale_mul_le hsy
    (le_trans (min_le_right _ _) (min_le_left _ _))
  have hbz := lscale_mul_le hsz
    (le_trans (min_le_right _ _) (min_le_right _ _))
  have hvx1 : 0 ≤ lscaleOf B * (p.x - B.lower.x) :=
    mul_nonneg hpos.le (by linarith)
  have hvx2 : lscaleOf B * (p.x - B.lower.x) ≤ lscaleOf B * B.size.x := by
    apply mul_le_mul_of_nonneg_left _ hpos.le
    rw [hs1]
    linarith
  have hvy1 : 0 ≤ lscaleOf B * (p.y - B.lower.y) :=
    mul_nonneg hpos.le (by linarith)
  have hvy2 : lscaleOf B * (p.y - B.lower.y) ≤ lscaleOf B * B.size.y := by
    apply mul_le_mul_of_nonneg_left _ hpos.le
    rw [hs2]
    linarith
  have hvz1 : 0 ≤ lscaleOf B * (p.z - B.lower.z) :=
    mul_nonneg hpos.le (by linarith)
  have hvz2 : lscaleOf B * (p.z - B.lower.z) ≤ lscaleOf B * B.size.z := by
    apply mul_le_mul_of_nonneg_left _ hpos.le
    rw [hs3]
    linarith
  have hvx3 := sq_le_of_between hvx1 (le_trans hvx2 hbx) invsqrt3_sq
  have hvy3 := sq_le_of_between hvy1 (le_trans hvy2 hby) invsqrt3_sq
  have hvz3 := sq_le_of_between hvz1 (le_trans hvz2 hbz) invsqrt3_sq
  have hvS : lscaleOf B * (p.x - B.lower.x) * (lscaleOf B * (p.x - B.lower.x)) +
      lscaleOf B * (p.y - B.lower.y) * (lscaleOf B * (p.y - B.lower.y)) +
      lscaleOf B * (p.z - B.lower.z) * (lscaleOf B * (p.z - B.lower.z)) ≤
      65536 := by
    have h3 := sum_sq_le hvx3 hvy3 hvz3
    linarith
  have haS : (vtrunc ((126 : ℝ) • w)).x * (vtrunc ((126 : ℝ) • w)).x +
      (vtrunc ((126 : ℝ) • w)).y * (vtrunc ((126 : ℝ) • w)).y +
      (vtrunc ((126 : ℝ) • w)).z * (vtrunc ((126 : ℝ) • w)).z ≤ 15876 :=
    vtrunc_sqrLength_le w hw
  have hCS := cs_ineq (vtrunc ((126 : ℝ) • w)).x (vtrunc ((126 : ℝ) • w)).y
    (vtrunc ((126 : ℝ) • w)).z (lscaleOf B * (p.x - B.lower.x))
    (lscaleOf B * (p.y - B.lower.y)) (lscaleOf B * (p.z - B.lower.z))
  have hc2 := sq_le_bound hCS haS hvS
    (sum_sq_nonneg _ _ _) (sum_sq_nonneg _ _ _)
  have hres := abs_bound_of_sq hc2
  exact hres

theorem vtrunc_length_le (w : Vec3) (hw : w.sqrLength = 1) :
    (vtrunc ((126 : ℝ) • w)).length ≤ 126 := by
  unfold Vec3.length
  have h := vtrunc_sqrLength_le w hw
  calc Real.sqrt (vtrunc ((126 : ℝ) • w)).sqrLength
      ≤ Real.sqrt 15876 := Real.sqrt_le_sqrt h
  _ = 126 := by
    rw [show (15876 : ℝ) = 126^2 by norm_num,
      Real.sqrt_sq (by norm_num : (0:ℝ) ≤ 126)]

theorem inflation_bound (u : LinSpace) (hux : u.vx.sqrLength = 1)
    (huy : u.vy.sqrLength = 1) (huz : u.vz.sqrLength = 1) :
    0 ≤ inflationOf (quantFrame u) ∧ inflationOf (quantFrame u) ≤ 126 := by
  constructor
  · exact le_trans (Real.sqrt_nonneg _) (le_max_left _ _)
  · exact max_le (vtrunc_length_le u.vx hux)
      (max_le (vtrunc_length_le u.vy huy) (vtrunc_length_le u.vz huz))

theorem foldr_min_bound (lo hi : ℝ) :
    ∀ (xs : List ℝ) (b : ℝ), (∀ x ∈ xs, lo ≤ x ∧ x ≤ hi) → lo ≤ b →
      b ≤ hi → lo ≤ xs.foldr min b ∧ xs.foldr min b ≤ hi := by
  intro xs
  induction xs with
  | nil => intro b _ h1 h2; exact ⟨h1, h2⟩
  | cons x t ih =>
    intro b hall h1 h2
    obtain ⟨hx1, hx2⟩ := hall x (List.mem_cons_self x t)
    obtain ⟨ht1, ht2⟩ :=
      ih b (fun y hy => hall y (List.mem_cons_of_mem x hy)) h1 h2
    exact ⟨le_min hx1 ht1, le_trans (min_le_left _ _) hx2⟩

theorem foldr_max_bound (lo hi : ℝ) :
    ∀ (xs : List ℝ) (b : ℝ), (∀ x ∈ xs, lo ≤ x ∧ x ≤ hi) → lo ≤ b →
      b ≤ hi → lo ≤ xs.foldr max b ∧ xs.foldr max b ≤ hi := by
  intro xs
  induction xs with
  | nil => intro b _ h1 h2; exact ⟨h1, h2⟩
  | cons x t ih =>
    intro b hall h1 h2
    obtain ⟨hx1, hx2⟩ := hall x (List.mem_cons_self x t)
    obtain ⟨ht1, ht2⟩ :=
      ih b (fun y hy => hall y (List.mem_cons_of_mem x hy)) h1 h2
    exact ⟨le_trans hx1 (le_max_left _ _), max_le hx2 ht2⟩

theorem corners_mem (P B : Box) (hsub : Box.sub P B)
    (hwx : P.lower.x ≤ P.upper.x) (hwy : P.lower.y ≤ P.upper.y)
    (hwz : P.lower.z ≤ P.upper.z) :
    ∀ q ∈ P.corners, B.mem q := by
  obtain ⟨h1, h2, h3, h4, h5, h6⟩ := hsub
  intro q hq
  simp only [Box.corners, List.mem_cons, List.not_mem_nil, or_false] at hq
  rcases hq with h | h | h | h | h | h | h | h <;> subst h <;>
    exact ⟨by linarith, by linarith, by linarith, by linarith, by linarith,
      by linarith⟩

/-- C9: with the shared offset at the lower corner of the block bound and
the shared scale reduce_min(256/(size*sqrt 3)), every component of the
rotated/inflated per-primitive bound has its floor (ceiling) inside
[-32767, 32767], so the development-time assertions of fill hold and the
clamp of the quantization step never changes a value. -/
theorem claim_C9 (B P : Box) (u : LinSpace) (a : Vec3)
    (hsx : 0 < B.size.x) (hsy : 0 < B.size.y) (hsz : 0 < B.size.z)
    (hsub : Box.sub P B)
    (hwx : P.lower.x ≤ P.upper.x) (hwy : P.lower.y ≤ P.upper.y)
    (hwz : P.lower.z ≤ P.upper.z)
    (hux : u.vx.sqrLength = 1) (huy : u.vy.sqrLength = 1)
    (huz : u.vz.sqrLength = 1)
    (ha : a = (quantFrame u).vx ∨ a = (quantFrame u).vy ∨
      a = (quantFrame u).vz) :
    quantRangeOK B P u a := by
  obtain ⟨w, hw, haw⟩ :
      ∃ w, w.sqrLength = 1 ∧ a = vtrunc ((126 : ℝ) • w) := by
    rcases ha with h | h | h
    · exact ⟨u.vx, hux, h⟩
    · exact ⟨u.vy, huy, h⟩
    · exact ⟨u.vz, huz, h⟩
  subst haw
  obtain ⟨h1, h2, h3, h4, h5, h6⟩ := hsub
  have hmem := corners_mem P B ⟨h1, h2, h3, h4, h5, h6⟩ hwx hwy hwz
  have hbound : ∀ x ∈ P.corners.map
      (coordAlong (vtrunc ((126 : ℝ) • w)) (loffsetOf B) (lscaleOf B)),
      -32256 ≤ x ∧ x ≤ 32256 := by
    intro x hx
    obtain ⟨q, hq, rfl⟩ := List.mem_map.mp hx
    exact coord_bound B w q hsx hsy hsz hw (hmem q hq)
  have hupper : B.mem P.upper :=
    ⟨by linarith, h2, by linarith, h4, by linarith, h6⟩
  have hlower : B.mem P.lower :=
    ⟨h1, by linarith, h3, by linarith, h5, by linarith⟩
  have hbase_min := coord_bound B w P.upper hsx hsy hsz hw hupper
  have hbase_max := coord_bound B w P.lower hsx hsy hsz hw hlower
  have hfold_min := foldr_min_bound (-32256) 32256 _ _ hbound
    hbase_min.1 hbase_min.2
  have hfold_max := foldr_max_bound (-32256) 32256 _ _ hbound
    hbase_max.1 hbase_max.2
  have hinfl := inflation_bound u hux huy huz
  have hql1 : -32382 ≤ queryLower (vtrunc ((126 : ℝ) • w)) (loffsetOf B)
      (lscaleOf B) (inflationOf (quantFrame u)) P := by
    unfold queryLower
    linarith [hfold_min.1, hinfl.2]
  have hql2 : queryLower (vtrunc ((126 : ℝ) • w)) (loffsetOf B)
      (lscaleOf B) (inflationOf (quantFrame u)) P ≤ 32256 := by
    unfold queryLower
    linarith [hfold_min.2, hinfl.1]
  have hqu1 : -32256 ≤ queryUpper (vtrunc ((126 : ℝ) • w)) (loffsetOf B)
      (lscaleOf B) (inflationOf (quantFrame u)) P := by
    unfold queryUpper
    linarith [hfold_max.1, hinfl.1]
  have hqu2 : queryUpper (vtrunc ((126 : ℝ) • w)) (loffsetOf B)
      (lscaleOf B) (inflationOf (quantFrame u)) P ≤ 32382 := by
    unfold queryUpper
    linarith [hfold_max.2, hinfl.2]
  have hf1 : (-32767 : ℤ) ≤ ⌊queryLower (vtrunc ((126 : ℝ) • w))
      (loffsetOf B) (lscaleOf B) (inflationOf (quantFrame u)) P⌋ :=
    Int.le_floor.mpr (by push_cast; linarith)
  have hf2 : ⌊queryLower (vtrunc ((126 : ℝ) • w)) (loffsetOf B)
      (lscaleOf B) (inflationOf (quantFrame u)) P⌋ ≤ 32767 := by
    have hle := Int.floor_le (queryLower (vtrunc ((126 : ℝ) • w))
      (loffsetOf B) (lscaleOf B) (inflationOf (quantFrame u)) P)
    have : (↑⌊queryLower (vtrunc ((126 : ℝ) • w)) (loffsetOf B)
        (lscaleOf B) (inflationOf (quantFrame u)) P⌋ : ℝ) ≤ 32767 := by
      linarith
    exact_mod_cast this
  have hc1 : (-32767 : ℤ) ≤ ⌈queryUpper (vtrunc ((126 : ℝ) • w))
      (loffsetOf B) (lscaleOf B) (inflationOf (quantFrame u)) P⌉ := by
    have hle := Int.le_ceil (queryUpper (vtrunc ((126 : ℝ) • w))
      (loffsetOf B) (lscaleOf B) (inflationOf (quantFrame u)) P)
    have : (-32767 : ℝ) ≤ (↑⌈queryUpper (vtrunc ((126 : ℝ) • w))
        (loffsetOf B) (lscaleOf B) (inflationOf (quantFrame u)) P⌉ : ℝ) := by
      linarith
    exact_mod_cast this
  have hc2 : ⌈queryUpper (vtrunc ((126 : ℝ) • w)) (loffsetOf B)
      (lscaleOf B) (inflationOf (quantFrame u)) P⌉ ≤ 32767 :=
    Int.ceil_le.mpr (by push_cast; linarith)
  refine ⟨hf1, hf2, hc1, hc2, ?_, ?_⟩
  · unfold quantLower
    rw [min_eq_right hf2, max_eq_right hf1]
  · unfold quantUpper
    rw [min_eq_right hc2, max_eq_right hc1]

/-- Witness for C9: the unit block bound, the primitive bound equal to
it, and the identity orientation frame, along the first quantized axis. -/
theorem claim_C9_witness :
    (0 < wBox.size.x ∧ Box.sub wBox wBox ∧ wFrame.vx.sqrLength = 1) ∧
    quantRangeOK wBox wBox wFrame ((quantFrame wFrame).vx) := by
  have hs : 0 < wBox.size.x ∧ 0 < wBox.size.y ∧ 0 < wBox.size.z := by
    norm_num [wBox, Box.size, sub_def]
  have hsub : Box.sub wBox wBox := by
    norm_num [wBox, Box.sub]
  have hwf : wBox.lower.x ≤ wBox.upper.x ∧ wBox.lower.y ≤ wBox.upper.y ∧
      wBox.lower.z ≤ wBox.upper.z := by
    norm_num [wBox]
  have hu : wFrame.vx.sqrLength = 1 ∧ wFrame.vy.sqrLength = 1 ∧
      wFrame.vz.sqrLength = 1 := by
    norm_num [wFrame, Vec3.sqrLength, Vec3.dot]
  exact ⟨⟨hs.1, hsub, hu.1⟩,
    claim_C9 wBox wBox wFrame ((quantFrame wFrame).vx) hs.1 hs.2.1 hs.2.2
      hsub hwf.1 hwf.2.1 hwf.2.2 hu.1 hu.2.1 hu.2.2 (Or.inl rfl)⟩

end BezierNi
